import Mathlib

/-!
Shallow embedding of the transform-and-load pipeline of the energy-stats
repository (src/core/management/commands/transform_and_load.py).

Modelling conventions:
* A month (Python `datetime.date`, always the first of a month) is a serial
  number `d : Nat` with `d = 12 * year + (month - 1)`; `d / 12` is the year
  and `d % 12 + 1` the calendar month.  `date.replace(year=year-1)` becomes
  `d - 12`; Python raises `ValueError` when the new year would be below 1,
  i.e. exactly when `d < 24`.
* Floats are modelled as rationals (ℚ).
* Staging rows (`MonthlyGenerationData`) are the structure `Obs` below.
* Database tables are association lists keyed by their natural key;
  `update_or_create` is `upsertRow` (all fields in `defaults`) or
  `upsertWith` (partial `defaults`), `filter(...).update(...)` is a map
  over matching keys.  Row order in a list models insertion order.
* Query orderings that SQL leaves unspecified on ties are modelled by the
  stable `List.insertionSort` (ties keep list order), matching the spec's
  "arbitrary but deterministic" reading.
-/

/-- One staging row of the `MonthlyGenerationData` table. -/
structure Obs where
  country_code : String
  country : String
  date : Nat
  fuel_type : String
  is_aggregate_entity : Bool
  is_aggregate_series : Bool
  generation_twh : ℚ
  share_of_generation_pct : ℚ
deriving DecidableEq, Repr

/-- Year of a serial month. -/
def dYear (d : Nat) : Nat := d / 12

/-- Calendar month (1..12) of a serial month. -/
def dMonth (d : Nat) : Nat := d % 12 + 1

/-- `sorted(list(set(dates)))` over the dates of a record list. -/
def sortedUniqueDates (records : List Obs) : List Nat :=
  List.insertionSort (· ≤ ·) (records.map (·.date)).dedup

/-- `_get_date_windows`: the latest-12 window (`unique_dates[-12:]`) and the
previous-12 window (`unique_dates[-24:-12]`), with Python slice clamping. -/
def _get_date_windows (records : List Obs) : List Nat × List Nat :=
  let unique_dates := sortedUniqueDates records
  let n := unique_dates.length
  (unique_dates.drop (n - 12), (unique_dates.take (n - 12)).drop (n - 24))

/-- `total_by_date` of `_transform_country_metrics`: a `defaultdict(float)`
accumulating `generation_twh` per date, read with default 0. -/
def total_by_date (records : List Obs) (d : Nat) : ℚ :=
  ((records.filter (fun r => r.date = d)).map (·.generation_twh)).sum

/-- The low-carbon fuel set of `_transform_country_metrics`. -/
def LOW_CARBON_FUELS : List String :=
  ["Hydro", "Nuclear", "Wind", "Solar", "Bioenergy", "Other renewables"]

/-- Result of `_transform_country_metrics`. -/
structure CountryMetrics where
  latest_total : ℚ
  previous_total : ℚ
  low_carbon_pct : Option ℚ
deriving DecidableEq, Repr

/-- `_transform_country_metrics`: windowed totals and low-carbon share. -/
def _transform_country_metrics
    (records : List Obs) (latest_12_dates previous_12_dates : List Nat) :
    CountryMetrics :=
  let country_latest := (latest_12_dates.map (total_by_date records)).sum
  let country_previous := (previous_12_dates.map (total_by_date records)).sum
  -- the loop keeps records that are not "Net imports" and fall in latest_12
  let in_window := records.filter
    (fun r => r.fuel_type ≠ "Net imports" ∧ r.date ∈ latest_12_dates)
  let total_generation_except_imports := (in_window.map (·.generation_twh)).sum
  let low_carbon_generation :=
    ((in_window.filter (fun r => r.fuel_type ∈ LOW_CARBON_FUELS)).map
      (·.generation_twh)).sum
  let low_carbon_pct : Option ℚ :=
    if total_generation_except_imports > 0 then
      some (low_carbon_generation / total_generation_except_imports * 100)
    else none
  { latest_total := country_latest
    previous_total := country_previous
    low_carbon_pct := low_carbon_pct }

/-- `{r.date: r.generation_twh for r in rs}.get(d, 0.0)`: dict comprehension
semantics, the last record with the date wins, default 0. -/
def lookupGen (rs : List Obs) (d : Nat) : ℚ :=
  (((rs.filter (fun r => r.date = d)).map (·.generation_twh)).getLast?).getD 0

/-- `{r.date: r.share_of_generation_pct for r in rs}.get(d, 0.0)`. -/
def lookupShare (rs : List Obs) (d : Nat) : ℚ :=
  (((rs.filter (fun r => r.date = d)).map
    (·.share_of_generation_pct)).getLast?).getD 0

/-- Result of `_transform_fuel_metrics`. -/
structure FuelMetrics where
  latest_total : ℚ
  previous_total : ℚ
  avg_share : ℚ
  annual_yoy_growth : Option ℚ
  month_yoy_growth : Option ℚ
  latest_month_gen : ℚ
  latest_month_share : ℚ
deriving DecidableEq, Repr

/-- `_transform_fuel_metrics`: per-fuel windowed totals, average share and
the two growth figures.  The `month_yoy_growth` branch mirrors the
`try/except`: `replace(year=year-1)` raises exactly when the latest month's
year is below 2 (serial `< 24`), leaving the growth at `None`. -/
def _transform_fuel_metrics
    (fuel_records : List Obs) (latest_12_dates previous_12_dates : List Nat) :
    FuelMetrics :=
  let fuel_latest := (latest_12_dates.map (lookupGen fuel_records)).sum
  let fuel_previous := (previous_12_dates.map (lookupGen fuel_records)).sum
  let avg_share : ℚ :=
    if latest_12_dates ≠ [] then
      (latest_12_dates.map (lookupShare fuel_records)).sum /
        (latest_12_dates.length : ℚ)
    else 0
  let annual_growth : Option ℚ :=
    if fuel_previous > 0 then some ((fuel_latest / fuel_previous - 1) * 100)
    else none
  let month_growth : Option ℚ :=
    match latest_12_dates.getLast? with
    | none => none
    | some latest_month_date =>
        if latest_month_date < 24 then none
        else
          let prev_year_month_gen := lookupGen fuel_records (latest_month_date - 12)
          if prev_year_month_gen > 0 then
            some ((lookupGen fuel_records latest_month_date / prev_year_month_gen - 1) * 100)
          else none
  { latest_total := fuel_latest
    previous_total := fuel_previous
    avg_share := avg_share
    annual_yoy_growth := annual_growth
    month_yoy_growth := month_growth
    latest_month_gen :=
      match latest_12_dates.getLast? with
      | some d => lookupGen fuel_records d
      | none => 0
    latest_month_share :=
      match latest_12_dates.getLast? with
      | some d => lookupShare fuel_records d
      | none => 0 }

/-! ### Annual aggregation (`_load_annual_data`) -/

/-- Year of a serial month, as an integer (Python years are ints, so `year - 1`
does not truncate). -/
def dYearZ (d : Nat) : Int := (dYear d : Int)

/-- `annual_country_totals[y]`: generation summed over the year's
non-aggregate-series records only. -/
def annual_country_total (records : List Obs) (y : Int) : ℚ :=
  ((records.filter (fun r => ¬ r.is_aggregate_series ∧ dYearZ r.date = y)).map
    (·.generation_twh)).sum

/-- The keys of `annual_country_totals` (years with at least one
non-aggregate-series record), sorted ascending as in the source. -/
def annualYears (records : List Obs) : List Int :=
  List.insertionSort (· ≤ ·)
    (((records.filter (fun r => ¬ r.is_aggregate_series)).map
      (fun r => dYearZ r.date)).dedup)

/-- `annual_fuel_totals[(y, fuel)]`: generation summed over all of the
year's records for that fuel, aggregate series included. -/
def annual_fuel_total (records : List Obs) (y : Int) (fuel : String) : ℚ :=
  ((records.filter (fun r => dYearZ r.date = y ∧ r.fuel_type = fuel)).map
    (·.generation_twh)).sum

/-- `(y, fuel) in annual_fuel_totals`: some record of that year carries that
fuel type. -/
def hasFuelYear (records : List Obs) (y : Int) (fuel : String) : Bool :=
  records.any (fun r => dYearZ r.date = y ∧ r.fuel_type = fuel)

/-- `len(year_months[y])`: number of distinct calendar months observed in
year `y` (any fuel, aggregate series included). -/
def yearMonthsLen (records : List Obs) (y : Int) : Nat :=
  (((records.filter (fun r => dYearZ r.date = y)).map
    (fun r => dMonth r.date)).dedup).length

/-- The `fuel_types` set of `_load_annual_data`: non-empty fuel-type strings
seen in the records (a Python set; modelled as a deduplicated list). -/
def annualFuelTypes (records : List Obs) : List String :=
  ((records.map (·.fuel_type)).filter (fun f => f ≠ "")).dedup

/-- One `CountryFuelYear` row (the fields written by the upsert). -/
structure FuelYearRow where
  is_complete : Bool
  share : ℚ
  generation : ℚ
  yoy_growth : ℚ
deriving DecidableEq, Repr

/-- The row `_load_annual_data` writes for year `y` and fuel `f`. -/
def annualRowFor (records : List Obs) (y : Int) (f : String) : FuelYearRow :=
  let total_gen := annual_country_total records y
  let gen := annual_fuel_total records y f
  { is_complete := yearMonthsLen records y == 12
    share := if total_gen > 0 then gen / total_gen * 100 else 0
    generation := gen
    yoy_growth :=
      if hasFuelYear records (y - 1) f then
        (if annual_fuel_total records (y - 1) f > 0 then
          (gen / annual_fuel_total records (y - 1) f - 1) * 100
        else 0)
      else 0 }

/-- All `(year, fuel) ↦ row` upserts performed by `_load_annual_data` for one
country, in loop order: years ascending, fuels in set order, skipping
`(year, fuel)` pairs absent from `annual_fuel_totals`. -/
def annualRows (records : List Obs) : List ((Int × String) × FuelYearRow) :=
  (annualYears records).flatMap (fun y =>
    (annualFuelTypes records).filterMap (fun f =>
      if hasFuelYear records y f then some ((y, f), annualRowFor records y f)
      else none))

/-! ### Aggregate tables and upserts -/

/-- An aggregate row of the `Country` table (fields written by the pipeline). -/
structure CountryRow where
  name : String
  generation_latest_12_months : ℚ
  generation_previous_12_months : ℚ
  latest_month : Nat
  low_carbon_pct : Option ℚ
  electricity_rank : Nat
deriving DecidableEq, Repr

/-- An aggregate row of the `Fuel` table (fields written by the pipeline). -/
structure FuelRow where
  rank : Nat
  generation_latest_12_months : ℚ
  generation_all_time : ℚ
deriving DecidableEq, Repr

/-- An aggregate row of the `CountryFuel` table. -/
structure CountryFuelRow where
  share : ℚ
  latest_month : Nat
  generation_latest_12_months : ℚ
  generation_previous_12_months : ℚ
  month_yoy_growth : Option ℚ
  annual_yoy_growth : Option ℚ
  generation_latest_month : ℚ
  share_latest_month : ℚ
deriving DecidableEq, Repr

/-- A database table: rows in insertion order, keyed by the natural key. -/
abbrev Table (κ β : Type) := List (κ × β)

/-- The keys of a table, in row order. -/
def keysOf {κ β : Type} (t : Table κ β) : List κ := t.map (·.1)

/-- `update_or_create` with every written field in `defaults`: replace the
rows with the key if present, otherwise append a new row. -/
def upsertRow {κ β : Type} [DecidableEq κ] (k : κ) (v : β) (t : Table κ β) :
    Table κ β :=
  if t.any (fun e => e.1 = k) then
    t.map (fun e => if e.1 = k then (k, v) else e)
  else t ++ [(k, v)]

/-- `update_or_create` with a partial `defaults`: apply `f` to the stored row
if the key is present, otherwise append `f init` (`init` holds the
creation-time values of the untouched columns). -/
def upsertWith {κ β : Type} [DecidableEq κ] (k : κ) (f : β → β) (init : β)
    (t : Table κ β) : Table κ β :=
  if t.any (fun e => e.1 = k) then
    t.map (fun e => if e.1 = k then (e.1, f e.2) else e)
  else t ++ [(k, f init)]

/-- Fold a batch of keyed upserts over a table, in order. -/
def upsertAll {κ β : Type} [DecidableEq κ] (kvs : List (κ × β))
    (t : Table κ β) : Table κ β :=
  kvs.foldl (fun acc kv => upsertRow kv.1 kv.2 acc) t

/-! ### The `handle` pipeline

`handle` processes one country at a time: it computes the windows once from
all of the country's records, upserts the `Country` row, then per fuel type
upserts `Fuel` (resetting only `rank`) and `CountryFuel`, then upserts
`CountryFuelYear` rows, and finally runs the ranking pass over the whole
store.  During the per-country phase every written value is computed from
the staging table alone, and distinct tables are never read back, so the
runs below group the upserts by table; within each table they occur in the
source's loop order. -/

/-- The staging records of one country, `order_by("date")` (stable on ties). -/
def countryRecords (s : List Obs) (code : String) : List Obs :=
  List.insertionSort (fun a b => a.date ≤ b.date)
    (s.filter (fun r => r.country_code = code))

/-- `records.values_list("fuel_type", flat=True).distinct()` combined with the
loop's `if not fuel_type: continue` guard. -/
def fuelTypesOf (records : List Obs) : List String :=
  ((records.map (·.fuel_type)).dedup).filter (fun f => f ≠ "")

/-- The `Country` row `_load_country` writes for one country's records
(`electricity_rank` is the 0 placeholder until the ranking pass). -/
def countryRowFor (records : List Obs) : CountryRow :=
  let w := _get_date_windows records
  let m := _transform_country_metrics records w.1 w.2
  { name := ((records.head?).map (·.country)).getD ""
    generation_latest_12_months := m.latest_total
    generation_previous_12_months := m.previous_total
    latest_month := w.1.getLastD 0
    low_carbon_pct := m.low_carbon_pct
    electricity_rank := 0 }

/-- The `CountryFuel` row `_load_fuel_data` writes for one fuel type: metrics
from the fuel's records over the country-level windows. -/
def countryFuelRowFor (records : List Obs) (fuel_type : String) :
    CountryFuelRow :=
  let w := _get_date_windows records
  let fuel_records := records.filter (fun r => r.fuel_type = fuel_type)
  let m := _transform_fuel_metrics fuel_records w.1 w.2
  { share := m.avg_share
    latest_month := w.1.getLastD 0
    generation_latest_12_months := m.latest_total
    generation_previous_12_months := m.previous_total
    month_yoy_growth := m.month_yoy_growth
    annual_yoy_growth := m.annual_yoy_growth
    generation_latest_month := m.latest_month_gen
    share_latest_month := m.latest_month_share }

/-- `{r with rank := 0}`: the only field in `Fuel`'s upsert `defaults`. -/
def resetFuelRank (r : FuelRow) : FuelRow := { r with rank := 0 }

/-- Creation-time values of the `Fuel` columns absent from `defaults`.  They
never reach the final state: the ranking pass overwrites both generation
fields of every fuel type created during a run. -/
def newFuelRow : FuelRow :=
  { rank := 0, generation_latest_12_months := 0, generation_all_time := 0 }

/-- The per-country guard of `handle`: skip when the country has no staging
records (`not records.exists()`) or no latest window (`not latest_12`). -/
def countrySkipped (s : List Obs) (code : String) : Bool :=
  countryRecords s code = [] ∨ (_get_date_windows (countryRecords s code)).1 = []

/-- `Country` upserts of a run, in processing order. -/
def countryKVs (s : List Obs) (codes : List String) :
    List (String × CountryRow) :=
  codes.filterMap (fun code =>
    if countrySkipped s code then none
    else some (code, countryRowFor (countryRecords s code)))

/-- `Fuel` upserts of a run: each processed country's fuel types in loop
order (a type recurs when several countries share it). -/
def processedFuelTypes (s : List Obs) (codes : List String) : List String :=
  codes.flatMap (fun code =>
    if countrySkipped s code then []
    else fuelTypesOf (countryRecords s code))

/-- `CountryFuel` upserts of one processed country. -/
def countryFuelKVsFor (s : List Obs) (code : String) :
    List ((String × String) × CountryFuelRow) :=
  if countrySkipped s code then []
  else (fuelTypesOf (countryRecords s code)).map
    (fun ft => ((code, ft), countryFuelRowFor (countryRecords s code) ft))

/-- `CountryFuel` upserts of a run. -/
def countryFuelKVs (s : List Obs) (codes : List String) :
    List ((String × String) × CountryFuelRow) :=
  codes.flatMap (countryFuelKVsFor s)

/-- `CountryFuelYear` upserts of one processed country, keyed
`(country, fuel, year)`. -/
def countryFuelYearKVsFor (s : List Obs) (code : String) :
    List ((String × String × Int) × FuelYearRow) :=
  if countrySkipped s code then []
  else (annualRows (countryRecords s code)).map
    (fun kv => ((code, kv.1.2, kv.1.1), kv.2))

/-- `CountryFuelYear` upserts of a run. -/
def countryFuelYearKVs (s : List Obs) (codes : List String) :
    List ((String × String × Int) × FuelYearRow) :=
  codes.flatMap (countryFuelYearKVsFor s)

/-- Fold the `Fuel` upserts (`update_or_create(type=ft, defaults={rank: 0})`)
over the fuels table. -/
def upsertFuelTypes (types : List String) (t : Table String FuelRow) :
    Table String FuelRow :=
  types.foldl (fun acc ft => upsertWith ft resetFuelRank newFuelRow acc) t

/-! ### The ranking pass (`_apply_rankings`) -/

/-- Descending order on positions of the countries table by
`generation_latest_12_months` (out-of-range positions read as 0; the sort
only ever compares in-range positions). -/
def countrySortRel (gens : List ℚ) (i j : Nat) : Prop :=
  gens.getD j 0 ≤ gens.getD i 0

instance (gens : List ℚ) : DecidableRel (countrySortRel gens) := fun i j => by
  unfold countrySortRel; infer_instance

instance (gens : List ℚ) : IsTotal Nat (countrySortRel gens) :=
  ⟨fun i j => le_total (gens.getD j 0) (gens.getD i 0)⟩

instance (gens : List ℚ) : IsTrans Nat (countrySortRel gens) :=
  ⟨fun _ _ _ h h2 => le_trans h2 h⟩

/-- The positions of the countries table in the order
`order_by("-generation_latest_12_months")` iterates them (stable on ties:
ties keep table order, the deterministic tie-break). -/
def countryRankOrder (cs : Table String CountryRow) : List Nat :=
  List.insertionSort
    (countrySortRel (cs.map (fun e => e.2.generation_latest_12_months)))
    (List.range cs.length)

/-- The rank each table position receives: 1 plus its place in the
iteration order. -/
def countryRanks (cs : Table String CountryRow) : List Nat :=
  (List.range cs.length).map (fun i => (countryRankOrder cs).indexOf i + 1)

/-- The country ranking pass: the row at position `i` receives rank
`1 + position of i` in the iteration order (the net effect of the
`enumerate(countries, start=1)` loop of saves). -/
def rankCountries (cs : Table String CountryRow) : Table String CountryRow :=
  List.zipWith (fun e rk => (e.1, { e.2 with electricity_rank := rk }))
    cs (countryRanks cs)

/-- The fuel types grouped by `CountryFuel.values("fuel__type")`, in the
deterministic order the grouping is modelled to produce. -/
def cfFuelTypes (cfs : Table (String × String) CountryFuelRow) : List String :=
  (cfs.map (fun e => e.1.2)).dedup

/-- `Sum("generation_latest_12_months")` of a fuel type's `CountryFuel`
rows across all countries. -/
def fuelTotal (cfs : Table (String × String) CountryFuelRow) (t : String) :
    ℚ :=
  ((cfs.filter (fun e => e.1.2 = t)).map
    (fun e => e.2.generation_latest_12_months)).sum

/-- Descending order on fuel types by cross-country rolling total. -/
def fuelSortRel (cfs : Table (String × String) CountryFuelRow)
    (t u : String) : Prop :=
  fuelTotal cfs u ≤ fuelTotal cfs t

instance (cfs : Table (String × String) CountryFuelRow) :
    DecidableRel (fuelSortRel cfs) := fun t u => by
  unfold fuelSortRel; infer_instance

instance (cfs : Table (String × String) CountryFuelRow) :
    IsTotal String (fuelSortRel cfs) :=
  ⟨fun t u => le_total (fuelTotal cfs u) (fuelTotal cfs t)⟩

instance (cfs : Table (String × String) CountryFuelRow) :
    IsTrans String (fuelSortRel cfs) :=
  ⟨fun _ _ _ h h2 => le_trans h2 h⟩

/-- Fuel types in the order `order_by("-total")` iterates the groups. -/
def fuelRankOrder (cfs : Table (String × String) CountryFuelRow) :
    List String :=
  List.insertionSort (fuelSortRel cfs) (cfFuelTypes cfs)

/-- The fuel-type groups of the all-time pass over the staging table. -/
def stagingFuelTypes (s : List Obs) : List String :=
  (s.map (·.fuel_type)).dedup

/-- `Sum("generation_twh")` of all staging records of a fuel type. -/
def allTimeTotal (s : List Obs) (t : String) : ℚ :=
  ((s.filter (fun r => r.fuel_type = t)).map (·.generation_twh)).sum

/-- Net effect of the two fuel update loops on one stored `Fuel` row: the
rank/rolling-total update fires iff the type has `CountryFuel` rows, the
all-time update iff the type occurs in staging. -/
def rankedFuelRow (s : List Obs) (cfs : Table (String × String) CountryFuelRow)
    (t : String) (r : FuelRow) : FuelRow :=
  let r1 :=
    if t ∈ cfFuelTypes cfs then
      { r with rank := (fuelRankOrder cfs).indexOf t + 1
               generation_latest_12_months := fuelTotal cfs t }
    else r
  if t ∈ stagingFuelTypes s then
    { r1 with generation_all_time := allTimeTotal s t }
  else r1

/-- The fuel half of `_apply_rankings` (`filter(type=...).update(...)` never
creates rows, so this is a per-row map). -/
def rankFuels (s : List Obs) (cfs : Table (String × String) CountryFuelRow)
    (fs : Table String FuelRow) : Table String FuelRow :=
  fs.map (fun e => (e.1, rankedFuelRow s cfs e.1 e.2))

/-! ### The full command -/

/-- The five logical tables the command touches. -/
structure PipelineDB where
  staging : List Obs
  countries : Table String CountryRow
  fuels : Table String FuelRow
  countryFuels : Table (String × String) CountryFuelRow
  countryFuelYears : Table (String × String × Int) FuelYearRow
deriving DecidableEq, Repr

/-- `options["country"]` resolution: an omitted or empty `--country` list
falls back to the distinct staging codes; otherwise the codes are
upper-cased. -/
def countryCodesToProcess (s : List Obs) (requested : Option (List String)) :
    List String :=
  match requested with
  | some cs => if cs ≠ [] then cs.map (·.toUpper) else (s.map (·.country_code)).dedup
  | none => (s.map (·.country_code)).dedup

/-- `Command.handle`: per-country transform-and-load upserts over staging,
then the ranking pass over the full store. -/
def transformAndLoad (requested : Option (List String)) (db : PipelineDB) :
    PipelineDB :=
  let codes := countryCodesToProcess db.staging requested
  let cs1 := upsertAll (countryKVs db.staging codes) db.countries
  let fs1 := upsertFuelTypes (processedFuelTypes db.staging codes) db.fuels
  let cfs1 := upsertAll (countryFuelKVs db.staging codes) db.countryFuels
  let cfy1 := upsertAll (countryFuelYearKVs db.staging codes) db.countryFuelYears
  { staging := db.staging
    countries := rankCountries cs1
    fuels := rankFuels db.staging cfs1 fs1
    countryFuels := cfs1
    countryFuelYears := cfy1 }

/-! ### Auxiliary notions used by the verification -/

/-- The latest observed month of a record set (0 when empty). -/
def maxDate (records : List Obs) : Nat :=
  (records.map (·.date)).foldr max 0

/-- A country entry with its (ranking-pass-owned) rank field zeroed. -/
def stripCountryEntry (e : String × CountryRow) : String × CountryRow :=
  (e.1, { e.2 with electricity_rank := 0 })

/-- A fuel entry with the fields the ranking pass overwrites for its key
zeroed: rank and rolling total when the type has `CountryFuel` rows
(`cfT`), all-time total when the type occurs in staging (`stT`). -/
def stripFuelEntry (cfT stT : List String) (e : String × FuelRow) :
    String × FuelRow :=
  (e.1,
    { rank := if e.1 ∈ cfT then 0 else e.2.rank
      generation_latest_12_months :=
        if e.1 ∈ cfT then 0 else e.2.generation_latest_12_months
      generation_all_time :=
        if e.1 ∈ stT then 0 else e.2.generation_all_time })

/-- The key is stored and every row under it carries exactly the value `v`. -/
def holdsRow {κ β : Type} [DecidableEq κ] (k : κ) (v : β) (t : Table κ β) :
    Prop :=
  k ∈ keysOf t ∧ ∀ e ∈ t, e.1 = k → e = (k, v)

/-- The key is stored and every row under it has rank 0 (the state the
`Fuel` upsert leaves behind). -/
def holdsReset (k : String) (t : Table String FuelRow) : Prop :=
  k ∈ keysOf t ∧ ∀ e ∈ t, e.1 = k → e.2.rank = 0

/-! ### Concrete data used by witnesses and counterexamples -/

/-- A staging record for country `FRA`, fuel and flags configurable. -/
def mkObs (y m : Nat) (g : ℚ) (ft : String) (agg : Bool) : Obs :=
  { country_code := "FRA", country := "France", date := 12 * y + (m - 1)
    fuel_type := ft, is_aggregate_entity := false, is_aggregate_series := agg
    generation_twh := g, share_of_generation_pct := 70 }

/-- The spec's end-to-end example: generation 1..12 across 2023, then flat
10.0 across 2024, a single fuel. -/
def exampleRecords : List Obs :=
  ((List.range 12).map (fun i => mkObs 2023 (i + 1) ((i + 1 : Nat) : ℚ) "Nuclear" false)) ++
  ((List.range 12).map (fun i => mkObs 2024 (i + 1) 10 "Nuclear" false))

/-- A year whose only observation is an aggregate-series row. -/
def aggOnlyYearRecords : List Obs :=
  [mkObs 2020 5 5 "Renewables" true]

/-- Observations in months 1..11 of 2020 only. -/
def elevenMonthRecords : List Obs :=
  (List.range 11).map (fun i => mkObs 2020 (i + 1) 1 "Solar" false)

/-- The same year with month 12 added. -/
def twelveMonthRecords : List Obs :=
  elevenMonthRecords ++ [mkObs 2020 12 1 "Solar" false]

/-- A countries table with rolling totals 100, 100, 50. -/
def tieTable : Table String CountryRow :=
  [("AAA", { name := "A", generation_latest_12_months := 100
             generation_previous_12_months := 0, latest_month := 0
             low_carbon_pct := none, electricity_rank := 0 }),
   ("BBB", { name := "B", generation_latest_12_months := 100
             generation_previous_12_months := 0, latest_month := 0
             low_carbon_pct := none, electricity_rank := 0 }),
   ("CCC", { name := "C", generation_latest_12_months := 50
             generation_previous_12_months := 0, latest_month := 0
             low_carbon_pct := none, electricity_rank := 0 })]

/-- A one-record staging table for a second country, used to exercise
runs restricted with `--country`. -/
def gbrObs : Obs :=
  { country_code := "GBR", country := "Britain", date := 12 * 2024
    fuel_type := "Wind", is_aggregate_entity := false
    is_aggregate_series := false, generation_twh := 3
    share_of_generation_pct := 50 }

/-- A database holding staging data for two countries and a stored
aggregate row for a third country that no staging row mentions. -/
def witnessDB : PipelineDB :=
  { staging := [mkObs 2024 1 2 "Solar" false, gbrObs]
    countries :=
      [("ZZZ", { name := "Z", generation_latest_12_months := 7
                 generation_previous_12_months := 1, latest_month := 5
                 low_carbon_pct := none, electricity_rank := 9 })]
    fuels := [], countryFuels := [], countryFuelYears := [] }

/-! ## Helper lemmas -/

set_option maxRecDepth 10000

theorem mem_insertionSort {α : Type} (r : α → α → Prop) [DecidableRel r]
    {l : List α} {a : α} : a ∈ List.insertionSort r l ↔ a ∈ l :=
  (List.perm_insertionSort r l).mem_iff

theorem sortedUniqueDates_sorted (records : List Obs) :
    List.Sorted (· ≤ ·) (sortedUniqueDates records) :=
  List.sorted_insertionSort _ _

theorem sortedUniqueDates_perm (records : List Obs) :
    (sortedUniqueDates records).Perm (records.map (·.date)).dedup :=
  List.perm_insertionSort _ _

theorem sortedUniqueDates_nodup (records : List Obs) :
    (sortedUniqueDates records).Nodup :=
  ((sortedUniqueDates_perm records).nodup_iff).mpr (List.nodup_dedup _)

theorem mem_sortedUniqueDates {records : List Obs} {d : Nat} :
    d ∈ sortedUniqueDates records ↔ d ∈ records.map (·.date) := by
  rw [(sortedUniqueDates_perm records).mem_iff, List.mem_dedup]

theorem sortedUniqueDates_strict (records : List Obs) :
    List.Pairwise (· < ·) (sortedUniqueDates records) := by
  have h1 := sortedUniqueDates_sorted records
  have h2 := sortedUniqueDates_nodup records
  exact (List.Pairwise.and h1 h2).imp (fun h => lt_of_le_of_ne h.1 h.2)

theorem mem_annualRows {records : List Obs} {y : Int} {f : String}
    {row : FuelYearRow} (h : ((y, f), row) ∈ annualRows records) :
    row = annualRowFor records y f := by
  simp only [annualRows, List.mem_flatMap, List.mem_filterMap] at h
  obtain ⟨y1, _, f1, _, hif⟩ := h
  by_cases hy : hasFuelYear records y1 f1
  · simp only [hy, if_true, Option.some.injEq, Prod.mk.injEq] at hif
    obtain ⟨⟨hy1, hf1⟩, hrow⟩ := hif
    subst hy1; subst hf1; exact hrow.symm
  · simp [hy] at hif

theorem mem_annualYears {records : List Obs} {y : Int} :
    y ∈ annualYears records ↔
      ∃ r ∈ records, dYearZ r.date = y ∧ ¬ r.is_aggregate_series := by
  simp only [annualYears, mem_insertionSort, List.mem_dedup, List.mem_map,
    List.mem_filter]
  constructor
  · rintro ⟨r, ⟨hr, hna⟩, hy⟩
    exact ⟨r, hr, hy, by simpa using hna⟩
  · rintro ⟨r, hr, hy, hna⟩
    exact ⟨r, ⟨hr, by simpa using hna⟩, hy⟩

theorem mem_annualFuelTypes {records : List Obs} {f : String} :
    f ∈ annualFuelTypes records ↔
      (∃ r ∈ records, r.fuel_type = f) ∧ f ≠ "" := by
  simp only [annualFuelTypes, List.mem_dedup, List.mem_filter, List.mem_map]
  constructor
  · rintro ⟨⟨r, hr, hf⟩, hne⟩
    exact ⟨⟨r, hr, hf⟩, by simpa using hne⟩
  · rintro ⟨⟨r, hr, hf⟩, hne⟩
    exact ⟨⟨r, hr, hf⟩, by simpa using hne⟩

theorem hasFuelYear_iff {records : List Obs} {y : Int} {f : String} :
    hasFuelYear records y f = true ↔
      ∃ r ∈ records, dYearZ r.date = y ∧ r.fuel_type = f := by
  simp [hasFuelYear, List.any_eq_true]

theorem keys_annualRows {records : List Obs} {y : Int} {f : String} :
    (y, f) ∈ (annualRows records).map (·.1) ↔
      (y ∈ annualYears records ∧ f ∈ annualFuelTypes records ∧
        hasFuelYear records y f = true) := by
  constructor
  · intro h
    obtain ⟨e, he, hk⟩ := List.mem_map.mp h
    obtain ⟨y1, hy1, he2⟩ := List.mem_flatMap.mp he
    obtain ⟨f1, hf1, hsome⟩ := List.mem_filterMap.mp he2
    by_cases hfy : hasFuelYear records y1 f1
    · rw [if_pos hfy] at hsome
      obtain rfl := Option.some.inj hsome
      injection hk with h1 h2
      subst h1; subst h2
      exact ⟨hy1, hf1, hfy⟩
    · rw [if_neg hfy] at hsome; cases hsome
  · rintro ⟨hy, hf, hh⟩
    refine List.mem_map.mpr ⟨((y, f), annualRowFor records y f), ?_, rfl⟩
    refine List.mem_flatMap.mpr ⟨y, hy, ?_⟩
    exact List.mem_filterMap.mpr ⟨f, hf, by rw [if_pos hh]⟩

theorem mem_annualRows_eleven :
    ((2020, "Solar"), annualRowFor elevenMonthRecords 2020 "Solar") ∈
      annualRows elevenMonthRecords := by
  simp [annualRows, annualYears, annualFuelTypes, elevenMonthRecords, mkObs,
    List.insertionSort, List.orderedInsert, List.range_succ, dYearZ, dYear,
    hasFuelYear]

theorem mem_annualRows_twelve :
    ((2020, "Solar"), annualRowFor twelveMonthRecords 2020 "Solar") ∈
      annualRows twelveMonthRecords := by
  simp [annualRows, annualYears, annualFuelTypes, twelveMonthRecords,
    elevenMonthRecords, mkObs, List.insertionSort, List.orderedInsert,
    List.range_succ, dYearZ, dYear, hasFuelYear]

/-! ## Claims -/

/-- C2: the two year-over-year growth fallbacks are asymmetric.  On
`_transform_fuel_metrics`, a previous-window rolling total of 0 gives
`annual_yoy_growth = none`, and a positive one gives the percentage-change
formula.  On `_load_annual_data` rows, a missing or zero prior-year fuel
total gives `yoy_growth = 0`, and a recorded positive one gives the
percentage-change formula. -/
theorem claim_C2_growth_fallback_asymmetry :
    (∀ (fuel_records : List Obs) (l12 p12 : List Nat),
      ((_transform_fuel_metrics fuel_records l12 p12).previous_total = 0 →
        (_transform_fuel_metrics fuel_records l12 p12).annual_yoy_growth = none) ∧
      (0 < (_transform_fuel_metrics fuel_records l12 p12).previous_total →
        (_transform_fuel_metrics fuel_records l12 p12).annual_yoy_growth =
          some (((_transform_fuel_metrics fuel_records l12 p12).latest_total /
            (_transform_fuel_metrics fuel_records l12 p12).previous_total - 1) * 100))) ∧
    (∀ (records : List Obs) (y : Int) (f : String) (row : FuelYearRow),
      ((y, f), row) ∈ annualRows records →
      ((hasFuelYear records (y - 1) f = false ∨
          annual_fuel_total records (y - 1) f = 0) → row.yoy_growth = 0) ∧
      (hasFuelYear records (y - 1) f = true →
        0 < annual_fuel_total records (y - 1) f →
        row.yoy_growth = (annual_fuel_total records y f /
          annual_fuel_total records (y - 1) f - 1) * 100)) := by
  constructor
  · intro fuel_records l12 p12
    constructor
    · intro h
      simp only [_transform_fuel_metrics] at h ⊢
      rw [h]
      simp
    · intro h
      simp only [_transform_fuel_metrics] at h ⊢
      rw [if_pos h]
  · intro records y f row hmem
    have hrow := mem_annualRows hmem
    subst hrow
    constructor
    · intro h
      rcases h with h | h
      · simp only [annualRowFor]
        rw [if_neg (by simp [h])]
      · simp only [annualRowFor]
        by_cases hfy : hasFuelYear records (y - 1) f
        · rw [if_pos hfy, if_neg (by rw [h]; exact lt_irrefl 0)]
        · rw [if_neg hfy]
    · intro h1 h2
      simp only [annualRowFor]
      rw [if_pos h1, if_pos h2]

/-- C2 witness: the null fallback on empty windows and the zero fallback on
a year with no prior-year data. -/
theorem claim_C2_growth_fallback_asymmetry_witness :
    (_transform_fuel_metrics [] [] []).annual_yoy_growth = none ∧
    (annualRowFor elevenMonthRecords 2020 "Solar").yoy_growth = 0 := by
  constructor
  · exact (claim_C2_growth_fallback_asymmetry.1 [] [] []).1 rfl
  · exact ((claim_C2_growth_fallback_asymmetry.2 elevenMonthRecords 2020 "Solar"
      _ mem_annualRows_eleven).1 (Or.inl (by decide)))

/-- C3: the low-carbon percentage ignores "Net imports" observations
entirely, restricts to the latest-12 window, uses the low-carbon fuel set as
numerator and all non-import generation as denominator, and is null exactly
when the denominator is 0 (generation values are non-negative). -/
theorem claim_C3_low_carbon_exclusion (records : List Obs) (l12 p12 : List Nat)
    (hnn : ∀ r ∈ records, 0 ≤ r.generation_twh) :
    ((_transform_country_metrics records l12 p12).low_carbon_pct =
      (_transform_country_metrics
        (records.filter (fun r => r.fuel_type ≠ "Net imports")) l12 p12).low_carbon_pct) ∧
    (((records.filter (fun r => r.date ∈ l12 ∧ r.fuel_type ≠ "Net imports")).map
        (·.generation_twh)).sum = 0 →
      (_transform_country_metrics records l12 p12).low_carbon_pct = none) ∧
    (((records.filter (fun r => r.date ∈ l12 ∧ r.fuel_type ≠ "Net imports")).map
        (·.generation_twh)).sum ≠ 0 →
      (_transform_country_metrics records l12 p12).low_carbon_pct =
        some ((((records.filter (fun r => r.date ∈ l12 ∧
            r.fuel_type ∈ LOW_CARBON_FUELS)).map (·.generation_twh)).sum /
          ((records.filter (fun r => r.date ∈ l12 ∧
            r.fuel_type ≠ "Net imports")).map (·.generation_twh)).sum) * 100)) := by
  have hswap : ∀ rs : List Obs,
      rs.filter (fun r => r.fuel_type ≠ "Net imports" ∧ r.date ∈ l12)
        = rs.filter (fun r => r.date ∈ l12 ∧ r.fuel_type ≠ "Net imports") := by
    intro rs
    apply List.filter_congr
    intro r _
    by_cases h1 : r.fuel_type = "Net imports" <;>
      by_cases h2 : r.date ∈ l12 <;> simp [h1, h2]
  have hnum2 : ∀ rs : List Obs,
      (rs.filter (fun r => r.date ∈ l12 ∧ r.fuel_type ≠ "Net imports")).filter
          (fun r => r.fuel_type ∈ LOW_CARBON_FUELS)
        = rs.filter (fun r => r.date ∈ l12 ∧ r.fuel_type ∈ LOW_CARBON_FUELS) := by
    intro rs
    rw [List.filter_filter]
    apply List.filter_congr
    intro r _
    by_cases hLC : r.fuel_type ∈ LOW_CARBON_FUELS
    · have hni : r.fuel_type ≠ "Net imports" := by
        intro h; rw [h] at hLC; exact absurd hLC (by decide)
      by_cases h2 : r.date ∈ l12 <;> simp [hLC, hni, h2]
    · by_cases h2 : r.date ∈ l12 <;> simp [hLC, h2]
  have key : ∀ rs : List Obs,
      (_transform_country_metrics rs l12 p12).low_carbon_pct =
        (if 0 < ((rs.filter (fun r => r.date ∈ l12 ∧
              r.fuel_type ≠ "Net imports")).map (·.generation_twh)).sum then
          some ((((rs.filter (fun r => r.date ∈ l12 ∧
              r.fuel_type ∈ LOW_CARBON_FUELS)).map (·.generation_twh)).sum /
            ((rs.filter (fun r => r.date ∈ l12 ∧
              r.fuel_type ≠ "Net imports")).map (·.generation_twh)).sum) * 100)
        else none) := by
    intro rs
    simp only [_transform_country_metrics]
    rw [hswap rs, hnum2 rs]
  refine ⟨?_, ?_, ?_⟩
  · rw [key records, key (records.filter (fun r => r.fuel_type ≠ "Net imports"))]
    rw [List.filter_filter, List.filter_filter]
    have heq1 : (fun (a : Obs) => decide (a.date ∈ l12 ∧ a.fuel_type ≠ "Net imports")
          && decide (a.fuel_type ≠ "Net imports"))
        = (fun a => decide (a.date ∈ l12 ∧ a.fuel_type ≠ "Net imports")) := by
      funext a
      by_cases h1 : a.fuel_type = "Net imports" <;>
        by_cases h2 : a.date ∈ l12 <;> simp [h1, h2]
    have heq2 : (fun (a : Obs) => decide (a.date ∈ l12 ∧ a.fuel_type ∈ LOW_CARBON_FUELS)
          && decide (a.fuel_type ≠ "Net imports"))
        = (fun a => decide (a.date ∈ l12 ∧ a.fuel_type ∈ LOW_CARBON_FUELS)) := by
      funext a
      by_cases hLC : a.fuel_type ∈ LOW_CARBON_FUELS
      · have hni : a.fuel_type ≠ "Net imports" := by
          intro h; rw [h] at hLC; exact absurd hLC (by decide)
        by_cases h2 : a.date ∈ l12 <;> simp [hLC, hni, h2]
      · by_cases h2 : a.date ∈ l12 <;> simp [hLC, h2]
    rw [heq1, heq2]
  · intro h
    rw [key records, if_neg (by rw [h]; exact lt_irrefl 0)]
  · intro h
    have hpos : 0 < ((records.filter (fun r => r.date ∈ l12 ∧
        r.fuel_type ≠ "Net imports")).map (·.generation_twh)).sum := by
      refine lt_of_le_of_ne (List.sum_nonneg ?_) (Ne.symm h)
      intro x hx
      obtain ⟨r, hr, rfl⟩ := List.mem_map.mp hx
      exact hnn r (List.mem_filter.mp hr).1
    rw [key records, if_pos hpos]

/-- C3 witness: with no records the denominator is 0 and the result null. -/
theorem claim_C3_low_carbon_exclusion_witness :
    (_transform_country_metrics [] [] []).low_carbon_pct = none :=
  (claim_C3_low_carbon_exclusion [] [] [] (by decide)).2.1 rfl

/-- C4 counterexample: a year whose only observation is an aggregate-series
row. The fuel "Renewables" is seen for the country and has an observation in
2020, yet `_load_annual_data` upserts no row at all, because 2020 never
enters `annual_country_totals` (no non-aggregate-series record). -/
theorem claim_C4_counterexample :
    "Renewables" ∈ annualFuelTypes aggOnlyYearRecords ∧
    hasFuelYear aggOnlyYearRecords 2020 "Renewables" = true ∧
    annualRows aggOnlyYearRecords = [] := by decide

/-- C4 amended: a `CountryFuelYear` row is upserted for `(y, f)` exactly when
the fuel was seen (non-empty) for the country, some observation for that fuel
exists in year `y`, and additionally year `y` has at least one
non-aggregate-series observation. -/
theorem claim_C4_annual_upsert_coverage (records : List Obs) (y : Int)
    (f : String) :
    (y, f) ∈ (annualRows records).map (·.1) ↔
      ((∃ r ∈ records, dYearZ r.date = y ∧ ¬ r.is_aggregate_series) ∧
       (∃ r ∈ records, dYearZ r.date = y ∧ r.fuel_type = f) ∧ f ≠ "") := by
  rw [keys_annualRows, mem_annualYears, mem_annualFuelTypes, hasFuelYear_iff]
  constructor
  · rintro ⟨h1, ⟨_, hne⟩, h3⟩; exact ⟨h1, h3, hne⟩
  · rintro ⟨h1, h2, h3⟩
    refine ⟨h1, ⟨?_, h3⟩, h2⟩
    obtain ⟨r, hr, _, hf⟩ := h2
    exact ⟨r, hr, hf⟩

/-- C4 amended witness: a normal year produces its row. -/
theorem claim_C4_annual_upsert_coverage_witness :
    (2020, "Solar") ∈ (annualRows elevenMonthRecords).map (·.1) :=
  (claim_C4_annual_upsert_coverage elevenMonthRecords 2020 "Solar").mpr
    (by decide)

/-- C5: the spec's end-to-end example.  24 months of one fuel, generation
1..12 across 2023 then flat 10.0 across 2024, yields rolling totals 120 and
78, annual growth 700/13 ≈ 53.846, month growth -50/3 ≈ -16.667 (December
2024's 10.0 against December 2023's 12.0), latest-month generation 10. -/
theorem claim_C5_end_to_end_example :
    (let w := _get_date_windows exampleRecords
     let m := _transform_fuel_metrics exampleRecords w.1 w.2
     m.latest_total = 120 ∧ m.previous_total = 78 ∧
     m.annual_yoy_growth = some (700 / 13) ∧
     |(700 / 13 : ℚ) - 53846 / 1000| < 1 / 1000 ∧
     m.month_yoy_growth = some (-(50 / 3)) ∧
     |(-(50 / 3) : ℚ) + 16667 / 1000| < 1 / 1000 ∧
     m.latest_month_gen = 10) := by
  norm_num [exampleRecords, mkObs, _get_date_windows, sortedUniqueDates,
    _transform_fuel_metrics, lookupGen, lookupShare, List.insertionSort,
    List.orderedInsert, List.range_succ, abs]

/-- C6: an annual row's completeness flag is true exactly when 12 distinct
calendar months were observed for the country in that year (any fuel). -/
theorem claim_C6_completeness_flag (records : List Obs) (y : Int) (f : String)
    (row : FuelYearRow) (hmem : ((y, f), row) ∈ annualRows records) :
    row.is_complete = true ↔ yearMonthsLen records y = 12 := by
  have hrow := mem_annualRows hmem
  subst hrow
  simp only [annualRowFor]
  exact beq_iff_eq

/-- C6 witness: months 1..11 leave the year incomplete, adding month 12
completes it. -/
theorem claim_C6_completeness_flag_witness :
    ((annualRowFor elevenMonthRecords 2020 "Solar").is_complete = true ↔
      yearMonthsLen elevenMonthRecords 2020 = 12) ∧
    (annualRowFor elevenMonthRecords 2020 "Solar").is_complete = false ∧
    (annualRowFor twelveMonthRecords 2020 "Solar").is_complete = true := by
  refine ⟨claim_C6_completeness_flag elevenMonthRecords 2020 "Solar" _
    mem_annualRows_eleven, ?_, ?_⟩
  · decide
  · decide

/-- C1: the window resolver returns the last 12 distinct months (all of them
when fewer exist) and the 12 before those (the possibly-empty partial
remainder when fewer than 24 exist); on 24 consecutive months starting at
`d0`, the windows are exactly the most recent 12 and the 12 before, with no
overlap. -/
theorem claim_C1_window_resolver (records : List Obs) (d0 : Nat) :
    ((_get_date_windows records).1.length =
      min 12 (sortedUniqueDates records).length) ∧
    ((_get_date_windows records).2.length =
      min 12 ((sortedUniqueDates records).length - 12)) ∧
    ((∀ d ∈ records.map (·.date), d0 ≤ d ∧ d < d0 + 24) →
     (∀ i ∈ List.range 24, d0 + i ∈ records.map (·.date)) →
      (_get_date_windows records).1 = (List.range 12).map (fun i => d0 + 12 + i) ∧
      (_get_date_windows records).2 = (List.range 12).map (fun i => d0 + i) ∧
      ∀ d ∈ (_get_date_windows records).1, d ∉ (_get_date_windows records).2) := by
  refine ⟨?_, ?_, ?_⟩
  · simp only [_get_date_windows, List.length_drop]
    omega
  · simp only [_get_date_windows, List.length_drop, List.length_take]
    omega
  · intro h1 h2
    have hC : sortedUniqueDates records = (List.range 24).map (fun i => d0 + i) := by
      have hnodupC : ((List.range 24).map (fun i => d0 + i)).Nodup :=
        List.Nodup.map (fun a b h => by omega) (List.nodup_range 24)
      have hmemiff : ∀ d, d ∈ sortedUniqueDates records ↔
          d ∈ (List.range 24).map (fun i => d0 + i) := by
        intro d
        rw [mem_sortedUniqueDates]
        constructor
        · intro hd
          obtain ⟨hlo, hhi⟩ := h1 d hd
          exact List.mem_map.mpr ⟨d - d0, List.mem_range.mpr (by omega), by omega⟩
        · intro hd
          obtain ⟨i, hi, rfl⟩ := List.mem_map.mp hd
          exact h2 i hi
      have hperm := (List.perm_ext_iff_of_nodup
        (sortedUniqueDates_nodup records) hnodupC).mpr hmemiff
      have hs1 : List.Sorted (· < ·) (sortedUniqueDates records) :=
        sortedUniqueDates_strict records
      have hs2 : List.Sorted (· < ·) ((List.range 24).map (fun i => d0 + i)) :=
        List.Pairwise.map (fun i => d0 + i)
          (fun a b h => Nat.add_lt_add_left h d0) (List.pairwise_lt_range 24)
      have : IsAntisymm Nat (· < ·) :=
        ⟨fun a b hab hba => absurd hab (not_lt.mpr (le_of_lt hba))⟩
      exact List.eq_of_perm_of_sorted hperm hs1 hs2
    have hlen : (sortedUniqueDates records).length = 24 := by
      rw [hC]; simp
    have hsplit : (List.range 24).map (fun i => d0 + i)
        = ((List.range 12).map (fun i => d0 + i)) ++
          ((List.range 12).map (fun i => d0 + (12 + i))) := by
      have h24 : (24 : Nat) = 12 + 12 := rfl
      rw [h24, List.range_add, List.map_append, List.map_map]
      rfl
    have hlenA : (24 - 12 : Nat) = ((List.range 12).map (fun i => d0 + i)).length := by
      simp
    have hw1 : (_get_date_windows records).1 =
        (List.range 12).map (fun i => d0 + (12 + i)) := by
      have e1 : (_get_date_windows records).1 = (sortedUniqueDates records).drop
          ((sortedUniqueDates records).length - 12) := rfl
      rw [e1, hlen, hC, hsplit, hlenA, List.drop_left]
    have hw2 : (_get_date_windows records).2 =
        (List.range 12).map (fun i => d0 + i) := by
      have e2 : (_get_date_windows records).2 =
          ((sortedUniqueDates records).take
            ((sortedUniqueDates records).length - 12)).drop
            ((sortedUniqueDates records).length - 24) := rfl
      rw [e2, hlen, hC, hsplit, hlenA, List.take_left,
        show (24 - 24 : Nat) = 0 from rfl, List.drop_zero]
    refine ⟨?_, hw2, ?_⟩
    · rw [hw1]; simp only [add_assoc]
    · intro d hd
      rw [hw1] at hd
      rw [hw2]
      obtain ⟨i, hi, rfl⟩ := List.mem_map.mp hd
      intro hmem
      obtain ⟨j, hj, hji⟩ := List.mem_map.mp hmem
      rw [List.mem_range] at hi hj
      omega

/-- C1 witness: the 24 consecutive example months (serial 24276 is January
2023) split into the two expected windows. -/
theorem claim_C1_window_resolver_witness :
    (_get_date_windows exampleRecords).1 =
      (List.range 12).map (fun i => 24276 + 12 + i) ∧
    (_get_date_windows exampleRecords).2 =
      (List.range 12).map (fun i => 24276 + i) ∧
    ∀ d ∈ (_get_date_windows exampleRecords).1,
      d ∉ (_get_date_windows exampleRecords).2 :=
  (claim_C1_window_resolver exampleRecords 24276).2.2 (by decide) (by decide)

theorem length_rankCountries (cs : Table String CountryRow) :
    (rankCountries cs).length = cs.length := by
  simp [rankCountries, countryRanks]

theorem countryRankOrder_perm (cs : Table String CountryRow) :
    (countryRankOrder cs).Perm (List.range cs.length) :=
  List.perm_insertionSort _ _

theorem countryRankOrder_nodup (cs : Table String CountryRow) :
    (countryRankOrder cs).Nodup :=
  ((countryRankOrder_perm cs).nodup_iff).mpr (List.nodup_range _)

theorem map_rank_zipWith (cs : Table String CountryRow) (rs : List Nat)
    (h : rs.length = cs.length) :
    (List.zipWith (fun e rk => (e.1, { e.2 with electricity_rank := rk }))
      cs rs).map (fun e => e.2.electricity_rank) = rs := by
  induction cs generalizing rs with
  | nil => cases rs with
    | nil => rfl
    | cons a l => simp at h
  | cons c ct ih =>
    cases rs with
    | nil => simp at h
    | cons a l =>
      simp only [List.zipWith_cons_cons, List.map_cons]
      rw [ih l (by simpa using h)]

theorem indexOf_map_order (cs : Table String CountryRow) :
    ((List.range cs.length).map
      (fun i => (countryRankOrder cs).indexOf i)).Perm
      (List.range cs.length) := by
  have hperm := countryRankOrder_perm cs
  have hself : (countryRankOrder cs).map
      (fun i => (countryRankOrder cs).indexOf i) = List.range cs.length := by
    apply List.ext_getElem
    · simp [hperm.length_eq]
    · intro k h1 h2
      simp only [List.getElem_map, List.getElem_range]
      exact List.indexOf_getElem (countryRankOrder_nodup cs) k
        (by simpa using h1)
  have h2 := List.Perm.map (fun i => (countryRankOrder cs).indexOf i) hperm.symm
  rw [hself] at h2
  exact h2

theorem rankCountries_ranks_perm (cs : Table String CountryRow) :
    ((rankCountries cs).map (fun e => e.2.electricity_rank)).Perm
      ((List.range cs.length).map (· + 1)) := by
  rw [rankCountries, map_rank_zipWith cs (countryRanks cs)
    (by simp [countryRanks]), countryRanks]
  have := (indexOf_map_order cs).map (· + 1)
  simpa [List.map_map, Function.comp] using this

theorem rankCountries_getElem (cs : Table String CountryRow) (i : Nat)
    (hi : i < (rankCountries cs).length) :
    (rankCountries cs)[i] =
      ((cs.get ⟨i, by rw [← length_rankCountries cs]; exact hi⟩).1,
       { (cs.get ⟨i, by rw [← length_rankCountries cs]; exact hi⟩).2 with
          electricity_rank := (countryRankOrder cs).indexOf i + 1 }) := by
  have hi' : i < cs.length := by rw [← length_rankCountries cs]; exact hi
  simp only [List.get_eq_getElem]
  simp only [rankCountries, List.getElem_zipWith]
  congr 2
  simp [countryRanks, List.getElem_map, List.getElem_range]

theorem map_strip_zipWith (cs : Table String CountryRow) (rs : List Nat)
    (h : rs.length = cs.length) :
    (List.zipWith (fun e rk => (e.1, { e.2 with electricity_rank := rk }))
      cs rs).map stripCountryEntry = cs.map stripCountryEntry := by
  induction cs generalizing rs with
  | nil => cases rs <;> rfl
  | cons c ct ih =>
    cases rs with
    | nil => simp at h
    | cons a l =>
      simp only [List.zipWith_cons_cons, List.map_cons]
      rw [ih l (by simpa using h)]
      simp [stripCountryEntry]

/-- C7: country ranking orders all aggregate rows by rolling total
descending and numbers them 1..N: the assigned ranks are a permutation of
1..N (consecutive, no gaps, ties distinct), a lower rank never has a
smaller rolling total, and no other field changes.  The tie-break is the
stable table order, so the result is a deterministic function of the
table. -/
theorem claim_C7_ranking_pass (cs : Table String CountryRow) :
    ((rankCountries cs).map (fun e => e.2.electricity_rank)).Perm
      ((List.range cs.length).map (· + 1)) ∧
    (∀ (i j : Nat) (hi : i < (rankCountries cs).length)
        (hj : j < (rankCountries cs).length),
      ((rankCountries cs)[i]).2.electricity_rank ≤
          ((rankCountries cs)[j]).2.electricity_rank →
      ((rankCountries cs)[j]).2.generation_latest_12_months ≤
        ((rankCountries cs)[i]).2.generation_latest_12_months) ∧
    (rankCountries cs).map stripCountryEntry = cs.map stripCountryEntry := by
  refine ⟨rankCountries_ranks_perm cs, ?_, ?_⟩
  · intro i j hi hj hle
    have hi' : i < cs.length := by rw [← length_rankCountries cs]; exact hi
    have hj' : j < cs.length := by rw [← length_rankCountries cs]; exact hj
    rw [rankCountries_getElem cs i hi, rankCountries_getElem cs j hj] at hle ⊢
    simp only at hle ⊢
    by_cases hij : i = j
    · subst hij; exact le_refl _
    · have hpi : (countryRankOrder cs).indexOf i ≤ (countryRankOrder cs).indexOf j := by
        omega
      have hmi : i ∈ countryRankOrder cs :=
        (countryRankOrder_perm cs).mem_iff.mpr (List.mem_range.mpr hi')
      have hmj : j ∈ countryRankOrder cs :=
        (countryRankOrder_perm cs).mem_iff.mpr (List.mem_range.mpr hj')
      have hpil : (countryRankOrder cs).indexOf i < (countryRankOrder cs).length :=
        List.indexOf_lt_length.mpr hmi
      have hpjl : (countryRankOrder cs).indexOf j < (countryRankOrder cs).length :=
        List.indexOf_lt_length.mpr hmj
      have hne : (countryRankOrder cs).indexOf i ≠ (countryRankOrder cs).indexOf j := by
        intro h
        apply hij
        have e1 := List.getElem_indexOf hpil
        have e2 := List.getElem_indexOf hpjl
        rw [← e1, ← e2]
        congr 1
      have hlt : (countryRankOrder cs).indexOf i < (countryRankOrder cs).indexOf j :=
        lt_of_le_of_ne hpi hne
      have hsorted : List.Pairwise
          (countrySortRel (cs.map (fun e => e.2.generation_latest_12_months)))
          (countryRankOrder cs) :=
        List.sorted_insertionSort _ _
      have hrel := (List.pairwise_iff_getElem.mp hsorted) _ _ hpil hpjl hlt
      rw [List.getElem_indexOf hpil, List.getElem_indexOf hpjl] at hrel
      unfold countrySortRel at hrel
      rw [List.getD_eq_getElem _ _ (by simpa using hj'),
        List.getD_eq_getElem _ _ (by simpa using hi')] at hrel
      simpa using hrel
  · exact map_strip_zipWith cs (countryRanks cs) (by simp [countryRanks])

/-- C7 witness: rolling totals [100, 100, 50] receive exactly the ranks
{1, 2, 3}, and rank comparisons bound the rolling totals. -/
theorem claim_C7_ranking_pass_witness :
    ((rankCountries tieTable).map (fun e => e.2.electricity_rank)).Perm [1, 2, 3] ∧
    ((rankCountries tieTable).get ⟨0, by
        rw [length_rankCountries]; simp [tieTable]⟩).2.generation_latest_12_months ≤
      ((rankCountries tieTable).get ⟨0, by
        rw [length_rankCountries]; simp [tieTable]⟩).2.generation_latest_12_months := by
  constructor
  · have h := (claim_C7_ranking_pass tieTable).1
    simpa [tieTable, List.range_succ] using h
  · exact (claim_C7_ranking_pass tieTable).2.1 0 0
      (by rw [length_rankCountries]; simp [tieTable])
      (by rw [length_rankCountries]; simp [tieTable]) (le_refl _)

theorem getLastD_ne_default {l : List Nat} (h : l ≠ []) (d1 d2 : Nat) :
    l.getLastD d1 = l.getLastD d2 := by
  induction l with
  | nil => exact absurd rfl h
  | cons a t ih =>
    cases t with
    | nil => rfl
    | cons b t2 => simp only [List.getLastD_cons]

theorem getLastD_mem : ∀ {l : List Nat}, l ≠ [] → ∀ d : Nat, l.getLastD d ∈ l := by
  intro l
  induction l with
  | nil => intro h; exact absurd rfl h
  | cons a t ih =>
    intro _ d
    cases t with
    | nil => simp
    | cons b t2 =>
      rw [List.getLastD_cons]
      exact List.mem_cons_of_mem a (ih (by simp) b)

theorem sorted_le_getLastD : ∀ {l : List Nat}, List.Sorted (· ≤ ·) l →
    ∀ x ∈ l, ∀ d : Nat, x ≤ l.getLastD d := by
  intro l
  induction l with
  | nil => intro _ x hx; cases hx
  | cons a t ih =>
    intro hs x hx d
    rw [List.sorted_cons] at hs
    cases t with
    | nil =>
      rcases List.mem_singleton.mp hx with rfl
      simp
    | cons b t2 =>
      rw [List.getLastD_cons]
      rcases List.mem_cons.mp hx with rfl | hx2
      · exact le_trans (hs.1 b (by simp)) (ih hs.2 b (by simp) x)
      · exact ih hs.2 x hx2 a

theorem le_foldr_max : ∀ {l : List Nat}, ∀ x ∈ l, x ≤ l.foldr max 0 := by
  intro l
  induction l with
  | nil => intro x hx; cases hx
  | cons a t ih =>
    intro x hx
    rcases List.mem_cons.mp hx with rfl | hx2
    · exact le_max_left _ _
    · exact le_trans (ih x hx2) (le_max_right _ _)

theorem foldr_max_mem : ∀ {l : List Nat}, l ≠ [] → l.foldr max 0 ∈ l := by
  intro l
  induction l with
  | nil => intro h; exact absurd rfl h
  | cons a t ih =>
    intro _
    cases t with
    | nil => simp
    | cons b t2 =>
      rcases max_choice a ((b :: t2).foldr max 0) with h | h
      · rw [List.foldr_cons, h]; simp
      · rw [List.foldr_cons, h]
        exact List.mem_cons_of_mem a (ih (by simp))

theorem sortedUniqueDates_ne_nil {records : List Obs} (h : records ≠ []) :
    sortedUniqueDates records ≠ [] := by
  intro hnil
  cases records with
  | nil => exact h rfl
  | cons r rs =>
    have : r.date ∈ sortedUniqueDates (r :: rs) :=
      mem_sortedUniqueDates.mpr (by simp)
    rw [hnil] at this
    cases this

theorem getLastD_sortedUniqueDates {records : List Obs} (h : records ≠ [])
    (d : Nat) : (sortedUniqueDates records).getLastD d = maxDate records := by
  have hne := sortedUniqueDates_ne_nil h
  apply le_antisymm
  · have hmem := getLastD_mem hne d
    have : (sortedUniqueDates records).getLastD d ∈ records.map (·.date) :=
      mem_sortedUniqueDates.mp hmem
    exact le_foldr_max _ this
  · have hmm : maxDate records ∈ records.map (·.date) := by
      apply foldr_max_mem
      cases records with
      | nil => exact absurd rfl h
      | cons r rs => simp
    exact sorted_le_getLastD (sortedUniqueDates_sorted records) _
      (mem_sortedUniqueDates.mpr hmm) d

theorem getLastD_drop : ∀ (k : Nat) (l : List Nat) (d : Nat),
    l.drop k ≠ [] → (l.drop k).getLastD d = l.getLastD d := by
  intro k
  induction k with
  | zero => intro l d _; rfl
  | succ k ih =>
    intro l d h
    cases l with
    | nil => simp at h
    | cons a t =>
      rw [List.drop_succ_cons] at h ⊢
      rw [ih t d h]
      have ht : t ≠ [] := by
        intro hnil; rw [hnil] at h; simp at h
      rw [List.getLastD_cons]
      exact (getLastD_ne_default ht a d).symm ▸ rfl

theorem getLast?_eq_some_getLastD : ∀ {l : List Nat}, l ≠ [] → ∀ d : Nat,
    l.getLast? = some (l.getLastD d) := by
  intro l
  induction l with
  | nil => intro h; exact absurd rfl h
  | cons a t ih =>
    intro _ d
    cases t with
    | nil => rfl
    | cons b t2 =>
      rw [List.getLast?_cons_cons, List.getLastD_cons]
      exact ih (by simp) b

/-- C9: per-fuel aggregation uses the country-level windows.  Every
`CountryFuel` row a run writes has `latest_month` equal to the most recent
month observed for the country across all fuels, every month of the window
used is a month with some observation for the country (any fuel), the
rolling total sums the fuel's per-month lookups (0 for missing months) over
that shared window, and the latest-month generation reads the fuel's value
at the country's latest month, 0 when the fuel has no observation there. -/
theorem claim_C9_country_level_windows (s : List Obs) (code : String)
    (kv : (String × String) × CountryFuelRow)
    (hkv : kv ∈ countryFuelKVsFor s code) :
    kv.2.latest_month = maxDate (countryRecords s code) ∧
    (∀ d ∈ (_get_date_windows (countryRecords s code)).1,
      ∃ r ∈ countryRecords s code, r.date = d) ∧
    kv.2.generation_latest_12_months =
      (((_get_date_windows (countryRecords s code)).1).map
        (lookupGen ((countryRecords s code).filter
          (fun r => r.fuel_type = kv.1.2)))).sum ∧
    kv.2.generation_latest_month =
      lookupGen ((countryRecords s code).filter (fun r => r.fuel_type = kv.1.2))
        (maxDate (countryRecords s code)) ∧
    ((countryRecords s code).filter (fun r => r.fuel_type = kv.1.2 ∧
        r.date = maxDate (countryRecords s code)) = [] →
      kv.2.generation_latest_month = 0) := by
  by_cases hskip : countrySkipped s code = true
  · rw [countryFuelKVsFor, if_pos hskip] at hkv
    cases hkv
  · rw [countryFuelKVsFor, if_neg hskip] at hkv
    simp only [countrySkipped, decide_eq_true_eq, not_or] at hskip
    obtain ⟨hrec, hw1⟩ := hskip
    obtain ⟨ft, hft, rfl⟩ := List.mem_map.mp hkv
    simp only
    have hlast : (_get_date_windows (countryRecords s code)).1.getLastD 0 =
        maxDate (countryRecords s code) := by
      have e1 : (_get_date_windows (countryRecords s code)).1 =
          (sortedUniqueDates (countryRecords s code)).drop
            ((sortedUniqueDates (countryRecords s code)).length - 12) := rfl
      rw [e1, getLastD_drop _ _ _ (by rw [← e1]; exact hw1)]
      exact getLastD_sortedUniqueDates hrec 0
    have hsome : (_get_date_windows (countryRecords s code)).1.getLast? =
        some (maxDate (countryRecords s code)) := by
      rw [getLast?_eq_some_getLastD hw1 0, hlast]
    refine ⟨?_, ?_, ?_, ?_, ?_⟩
    · simp only [countryFuelRowFor]
      exact hlast
    · intro d hd
      have hdL : d ∈ sortedUniqueDates (countryRecords s code) :=
        List.drop_subset _ _ hd
      have := mem_sortedUniqueDates.mp hdL
      obtain ⟨r, hr, hrd⟩ := List.mem_map.mp this
      exact ⟨r, hr, hrd⟩
    · simp only [countryFuelRowFor, _transform_fuel_metrics]
    · simp only [countryFuelRowFor, _transform_fuel_metrics, hsome]
    · intro hempty
      simp only [countryFuelRowFor, _transform_fuel_metrics, hsome]
      have hff : ((countryRecords s code).filter
            (fun r => r.fuel_type = ft)).filter
            (fun r => r.date = maxDate (countryRecords s code)) = [] := by
        rw [List.filter_filter]
        rw [← hempty]
        apply List.filter_congr
        intro r _
        by_cases h1 : r.fuel_type = ft <;>
          by_cases h2 : r.date = maxDate (countryRecords s code) <;>
            simp [h1, h2]
      rw [lookupGen, hff]
      rfl

/-- C9 witness: the single-fuel country of `witnessDB`. -/
theorem claim_C9_country_level_windows_witness :
    ((("FRA", "Solar"),
      countryFuelRowFor (countryRecords witnessDB.staging "FRA") "Solar").2.latest_month
        = maxDate (countryRecords witnessDB.staging "FRA")) :=
  (claim_C9_country_level_windows witnessDB.staging "FRA" _ (by
    simp [countryFuelKVsFor, countrySkipped, countryRecords, witnessDB, mkObs,
      gbrObs, fuelTypesOf, _get_date_windows, sortedUniqueDates,
      List.insertionSort, List.orderedInsert])).1

theorem any_key_iff {κ β : Type} [DecidableEq κ] (k : κ) (t : Table κ β) :
    (t.any (fun e => e.1 = k)) = true ↔ k ∈ keysOf t := by
  simp [keysOf, List.any_eq_true, List.mem_map]

theorem keysOf_map_update {κ β : Type} [DecidableEq κ] (k : κ) (v : β)
    (t : Table κ β) :
    keysOf (t.map (fun e => if e.1 = k then (k, v) else e)) = keysOf t := by
  simp only [keysOf, List.map_map]
  apply List.map_congr_left
  intro e _
  by_cases h : e.1 = k <;> simp [h]

theorem holdsRow_upsertRow_self {κ β : Type} [DecidableEq κ] (k : κ) (v : β)
    (t : Table κ β) : holdsRow k v (upsertRow k v t) := by
  unfold upsertRow
  by_cases hmem : k ∈ keysOf t
  · rw [if_pos ((any_key_iff k t).mpr hmem)]
    constructor
    · rw [keysOf_map_update]; exact hmem
    · intro e he _
      obtain ⟨e0, _, rfl⟩ := List.mem_map.mp he
      by_cases h0 : e0.1 = k <;> simp_all
  · rw [if_neg (by rw [any_key_iff]; exact hmem)]
    constructor
    · simp [keysOf]
    · intro e he hk
      rcases List.mem_append.mp he with h | h
      · exact absurd (hk ▸ List.mem_map_of_mem (·.1) h) hmem
      · simpa using List.mem_singleton.mp h

theorem holdsRow_upsertRow_of_ne {κ β : Type} [DecidableEq κ] {k : κ} {v : β}
    {t : Table κ β} (k2 : κ) (v2 : β) (hne : k2 ≠ k) (h : holdsRow k v t) :
    holdsRow k v (upsertRow k2 v2 t) := by
  unfold upsertRow
  by_cases hmem : (t.any (fun e => e.1 = k2)) = true
  · rw [if_pos hmem]
    constructor
    · rw [keysOf_map_update]; exact h.1
    · intro e he hk
      obtain ⟨e0, he0, rfl⟩ := List.mem_map.mp he
      by_cases h0 : e0.1 = k2
      · simp only [h0, if_pos] at hk ⊢
        exact absurd hk hne
      · rw [if_neg h0] at hk ⊢
        exact h.2 e0 he0 hk
  · rw [if_neg hmem]
    constructor
    · simp only [keysOf, List.map_append]
      exact List.mem_append.mpr (Or.inl h.1)
    · intro e he hk
      rcases List.mem_append.mp he with h2 | h2
      · exact h.2 e h2 hk
      · obtain rfl := List.mem_singleton.mp h2
        exact absurd hk hne

theorem upsertRow_eq_of_holdsRow {κ β : Type} [DecidableEq κ] {k : κ} {v : β}
    {t : Table κ β} (h : holdsRow k v t) : upsertRow k v t = t := by
  unfold upsertRow
  rw [if_pos ((any_key_iff k t).mpr h.1)]
  have : ∀ e ∈ t, (if e.1 = k then (k, v) else e) = e := by
    intro e he
    by_cases h0 : e.1 = k
    · rw [if_pos h0]
      exact (h.2 e he h0).symm
    · rw [if_neg h0]
  rw [List.map_congr_left this]
  exact List.map_id t

theorem upsertAll_cons {κ β : Type} [DecidableEq κ] (kv : κ × β)
    (kvs : List (κ × β)) (t : Table κ β) :
    upsertAll (kv :: kvs) t = upsertAll kvs (upsertRow kv.1 kv.2 t) := rfl

theorem holdsRow_upsertAll_of_not_mem {κ β : Type} [DecidableEq κ] {k : κ}
    {v : β} (kvs : List (κ × β)) {t : Table κ β}
    (h : holdsRow k v t) (hk : k ∉ kvs.map (·.1)) :
    holdsRow k v (upsertAll kvs t) := by
  induction kvs generalizing t with
  | nil => exact h
  | cons kv rest ih =>
    rw [upsertAll_cons]
    have hne : kv.1 ≠ k := by
      intro he
      exact hk (by simp [← he])
    exact ih (holdsRow_upsertRow_of_ne kv.1 kv.2 hne h)
      (fun hmem => hk (by simp [List.mem_map] at hmem ⊢; tauto))

theorem upsertAll_holds {κ β : Type} [DecidableEq κ] {kvs : List (κ × β)}
    (hnd : (kvs.map (·.1)).Nodup) (t : Table κ β) :
    ∀ kv ∈ kvs, holdsRow kv.1 kv.2 (upsertAll kvs t) := by
  induction kvs generalizing t with
  | nil => intro kv hkv; cases hkv
  | cons kv0 rest ih =>
    intro kv hkv
    rw [List.map_cons, List.nodup_cons] at hnd
    rcases List.mem_cons.mp hkv with rfl | hmem
    · rw [upsertAll_cons]
      exact holdsRow_upsertAll_of_not_mem rest
        (holdsRow_upsertRow_self kv.1 kv.2 t) hnd.1
    · rw [upsertAll_cons]
      exact ih hnd.2 _ kv hmem

theorem upsertAll_eq_of_holds {κ β : Type} [DecidableEq κ]
    {kvs : List (κ × β)} {t : Table κ β}
    (h : ∀ kv ∈ kvs, holdsRow kv.1 kv.2 t) : upsertAll kvs t = t := by
  induction kvs with
  | nil => rfl
  | cons kv rest ih =>
    rw [upsertAll_cons, upsertRow_eq_of_holdsRow (h kv (by simp))]
    exact ih (fun kv2 h2 => h kv2 (List.mem_cons_of_mem kv h2))

theorem upsertAll_idem {κ β : Type} [DecidableEq κ] {kvs : List (κ × β)}
    (hnd : (kvs.map (·.1)).Nodup) (t : Table κ β) :
    upsertAll kvs (upsertAll kvs t) = upsertAll kvs t :=
  upsertAll_eq_of_holds (upsertAll_holds hnd t)

theorem nodup_keysOf_upsertRow {κ β : Type} [DecidableEq κ] (k : κ) (v : β)
    {t : Table κ β} (h : (keysOf t).Nodup) :
    (keysOf (upsertRow k v t)).Nodup := by
  unfold upsertRow
  by_cases hmem : (t.any (fun e => e.1 = k)) = true
  · rw [if_pos hmem, keysOf_map_update]; exact h
  · rw [if_neg hmem]
    simp only [keysOf, List.map_append, List.map_cons, List.map_nil]
    rw [List.nodup_append]
    refine ⟨h, List.nodup_singleton _, ?_⟩
    intro a ha hb
    obtain rfl := List.mem_singleton.mp hb
    exact hmem ((any_key_iff a t).mpr ha)

theorem nodup_keysOf_upsertAll {κ β : Type} [DecidableEq κ]
    (kvs : List (κ × β)) {t : Table κ β} (h : (keysOf t).Nodup) :
    (keysOf (upsertAll kvs t)).Nodup := by
  induction kvs generalizing t with
  | nil => exact h
  | cons kv rest ih =>
    rw [upsertAll_cons]
    exact ih (nodup_keysOf_upsertRow kv.1 kv.2 h)

theorem any_key_map_strip {κ β : Type} [DecidableEq κ]
    (strip : κ × β → κ × β) (hkey : ∀ e, (strip e).1 = e.1) (k : κ)
    (t : Table κ β) :
    ((t.map strip).any (fun e => e.1 = k)) = t.any (fun e => e.1 = k) := by
  induction t with
  | nil => rfl
  | cons e t2 ih =>
    simp only [List.map_cons, List.any_cons, ih, hkey e]

theorem map_strip_upsertRow {κ β : Type} [DecidableEq κ]
    (strip : κ × β → κ × β) (hkey : ∀ e, (strip e).1 = e.1) (k : κ) (v : β)
    (t : Table κ β) :
    (upsertRow k v t).map strip =
      upsertRow k (strip (k, v)).2 (t.map strip) := by
  unfold upsertRow
  rw [any_key_map_strip strip hkey]
  by_cases hmem : (t.any (fun e => e.1 = k)) = true
  · rw [if_pos hmem, if_pos hmem, List.map_map, List.map_map]
    apply List.map_congr_left
    intro e _
    simp only [Function.comp]
    by_cases h0 : e.1 = k
    · rw [if_pos h0, hkey e, if_pos h0]
      exact Prod.ext_iff.mpr ⟨hkey (k, v), rfl⟩
    · rw [if_neg h0, hkey e, if_neg h0]
  · rw [if_neg hmem, if_neg hmem, List.map_append]
    congr 1
    simp only [List.map_cons, List.map_nil]
    congr 1
    exact Prod.ext_iff.mpr ⟨hkey (k, v), rfl⟩

theorem map_strip_upsertAll {κ β : Type} [DecidableEq κ]
    (strip : κ × β → κ × β) (hkey : ∀ e, (strip e).1 = e.1)
    (kvs : List (κ × β)) (t : Table κ β) :
    (upsertAll kvs t).map strip =
      upsertAll (kvs.map (fun kv => (kv.1, (strip kv).2))) (t.map strip) := by
  induction kvs generalizing t with
  | nil => rfl
  | cons kv rest ih =>
    rw [upsertAll_cons, ih (upsertRow kv.1 kv.2 t),
      map_strip_upsertRow strip hkey kv.1 kv.2 t, List.map_cons, upsertAll_cons]

theorem map_strip_upsertAll_congr {κ β : Type} [DecidableEq κ]
    (strip : κ × β → κ × β) (hkey : ∀ e, (strip e).1 = e.1)
    (kvs : List (κ × β)) {t t2 : Table κ β}
    (h : t.map strip = t2.map strip) :
    (upsertAll kvs t).map strip = (upsertAll kvs t2).map strip := by
  rw [map_strip_upsertAll strip hkey, map_strip_upsertAll strip hkey, h]

theorem map_strip_upsertWith {κ β : Type} [DecidableEq κ]
    (strip : κ × β → κ × β) (hkey : ∀ e, (strip e).1 = e.1)
    (f fs : β → β) (hf : ∀ e : κ × β, strip (e.1, f e.2) = (e.1, fs (strip e).2))
    (k : κ) (init : β) (t : Table κ β) :
    (upsertWith k f init t).map strip =
      upsertWith k fs (strip (k, init)).2 (t.map strip) := by
  unfold upsertWith
  rw [any_key_map_strip strip hkey]
  by_cases hmem : (t.any (fun e => e.1 = k)) = true
  · rw [if_pos hmem, if_pos hmem, List.map_map, List.map_map]
    apply List.map_congr_left
    intro e _
    simp only [Function.comp]
    by_cases h0 : e.1 = k
    · rw [if_pos h0, hkey e, if_pos h0]
      rw [hf e]
    · rw [if_neg h0, hkey e, if_neg h0]
  · rw [if_neg hmem, if_neg hmem, List.map_append]
    congr 1
    simp only [List.map_cons, List.map_nil]
    congr 1
    rw [hf (k, init)]

theorem stripFuelEntry_key (cfT stT : List String) :
    ∀ e : String × FuelRow, (stripFuelEntry cfT stT e).1 = e.1 :=
  fun _ => rfl

theorem stripFuelEntry_reset (cfT stT : List String) (e : String × FuelRow) :
    stripFuelEntry cfT stT (e.1, resetFuelRank e.2) =
      (e.1, resetFuelRank (stripFuelEntry cfT stT e).2) := by
  simp only [stripFuelEntry, resetFuelRank]
  by_cases h1 : e.1 ∈ cfT <;> by_cases h2 : e.1 ∈ stT <;> simp [h1, h2]

theorem stripFuelEntry_new (cfT stT : List String) (ft : String) :
    (stripFuelEntry cfT stT (ft, newFuelRow)).2 = newFuelRow := by
  simp only [stripFuelEntry, newFuelRow]
  by_cases h1 : ft ∈ cfT <;> by_cases h2 : ft ∈ stT <;> simp [h1, h2]

theorem upsertFuelTypes_cons (ft : String) (types : List String)
    (t : Table String FuelRow) :
    upsertFuelTypes (ft :: types) t =
      upsertFuelTypes types (upsertWith ft resetFuelRank newFuelRow t) := rfl

theorem map_strip_upsertFuelTypes (cfT stT : List String)
    (types : List String) (t : Table String FuelRow) :
    (upsertFuelTypes types t).map (stripFuelEntry cfT stT) =
      upsertFuelTypes types (t.map (stripFuelEntry cfT stT)) := by
  induction types generalizing t with
  | nil => rfl
  | cons ft rest ih =>
    rw [upsertFuelTypes_cons, upsertFuelTypes_cons, ih,
      map_strip_upsertWith (stripFuelEntry cfT stT) (stripFuelEntry_key cfT stT)
        resetFuelRank resetFuelRank (stripFuelEntry_reset cfT stT) ft newFuelRow t,
      stripFuelEntry_new cfT stT ft]

theorem resetFuelRank_eq_self {r : FuelRow} (h : r.rank = 0) :
    resetFuelRank r = r := by
  cases r
  simp only [resetFuelRank] at *
  simp [h]

theorem holdsReset_upsertWith_self (k : String) (init : FuelRow)
    (t : Table String FuelRow) :
    holdsReset k (upsertWith k resetFuelRank init t) := by
  unfold upsertWith
  by_cases hmem : (t.any (fun e => e.1 = k)) = true
  · rw [if_pos hmem]
    constructor
    · simp only [keysOf, List.map_map]
      have : k ∈ keysOf t := (any_key_iff k t).mp hmem
      obtain ⟨e, he, rfl⟩ := List.mem_map.mp this
      refine List.mem_map.mpr ⟨e, he, ?_⟩
      simp
    · intro e he hk
      obtain ⟨e0, _, rfl⟩ := List.mem_map.mp he
      by_cases h0 : e0.1 = k <;> simp_all [resetFuelRank]
  · rw [if_neg hmem]
    constructor
    · simp [keysOf]
    · intro e he hk
      rcases List.mem_append.mp he with h | h
      · exact absurd ((any_key_iff k t).mpr (hk ▸ List.mem_map_of_mem (·.1) h))
          (by simpa using hmem)
      · obtain rfl := List.mem_singleton.mp h
        rfl

theorem holdsReset_upsertWith (k k2 : String) (init : FuelRow)
    {t : Table String FuelRow} (h : holdsReset k t) :
    holdsReset k (upsertWith k2 resetFuelRank init t) := by
  by_cases hkk : k2 = k
  · subst hkk; exact holdsReset_upsertWith_self k2 init t
  · unfold upsertWith
    by_cases hmem : (t.any (fun e => e.1 = k2)) = true
    · rw [if_pos hmem]
      constructor
      · simp only [keysOf, List.map_map]
        obtain ⟨e, he, rfl⟩ := List.mem_map.mp h.1
        refine List.mem_map.mpr ⟨e, he, ?_⟩
        by_cases h0 : e.1 = k2 <;> simp [h0]
      · intro e he hk
        obtain ⟨e0, he0, rfl⟩ := List.mem_map.mp he
        by_cases h0 : e0.1 = k2
        · simp only [h0, if_pos] at hk
          exact absurd hk hkk
        · rw [if_neg h0] at hk ⊢
          exact h.2 e0 he0 hk
    · rw [if_neg hmem]
      constructor
      · simp only [keysOf, List.map_append]
        exact List.mem_append.mpr (Or.inl h.1)
      · intro e he hk
        rcases List.mem_append.mp he with h2 | h2
        · exact h.2 e h2 hk
        · obtain rfl := List.mem_singleton.mp h2
          exact absurd hk hkk

theorem upsertWith_eq_of_holdsReset {k : String} (init : FuelRow)
    {t : Table String FuelRow} (h : holdsReset k t) :
    upsertWith k resetFuelRank init t = t := by
  unfold upsertWith
  rw [if_pos ((any_key_iff k t).mpr h.1)]
  have : ∀ e ∈ t, ((fun e => if e.1 = k then (e.1, resetFuelRank e.2) else e) e) = e := by
    intro e he
    show (if e.1 = k then (e.1, resetFuelRank e.2) else e) = e
    by_cases h0 : e.1 = k
    · rw [if_pos h0, resetFuelRank_eq_self (h.2 e he h0)]
    · simp [h0]
  rw [List.map_congr_left this]
  exact List.map_id t

theorem holdsReset_upsertFuelTypes (types : List String) {k : String}
    {t : Table String FuelRow} (h : holdsReset k t) :
    holdsReset k (upsertFuelTypes types t) := by
  induction types generalizing t with
  | nil => exact h
  | cons g rest ih =>
    rw [upsertFuelTypes_cons]
    exact ih (holdsReset_upsertWith k g newFuelRow h)

theorem upsertFuelTypes_holds (types : List String)
    (t : Table String FuelRow) :
    ∀ ft ∈ types, holdsReset ft (upsertFuelTypes types t) := by
  induction types generalizing t with
  | nil => intro ft hft; cases hft
  | cons f0 rest ih =>
    intro ft hft
    rw [upsertFuelTypes_cons]
    rcases List.mem_cons.mp hft with rfl | hmem
    · exact holdsReset_upsertFuelTypes rest
        (holdsReset_upsertWith_self ft newFuelRow t)
    · exact ih _ ft hmem

theorem upsertFuelTypes_eq_of_holds {types : List String}
    {t : Table String FuelRow} (h : ∀ ft ∈ types, holdsReset ft t) :
    upsertFuelTypes types t = t := by
  induction types with
  | nil => rfl
  | cons f0 rest ih =>
    rw [upsertFuelTypes_cons, upsertWith_eq_of_holdsReset newFuelRow (h f0 (by simp))]
    exact ih (fun ft hft => h ft (List.mem_cons_of_mem f0 hft))

theorem upsertFuelTypes_idem (types : List String)
    (t : Table String FuelRow) :
    upsertFuelTypes types (upsertFuelTypes types t) = upsertFuelTypes types t :=
  upsertFuelTypes_eq_of_holds (upsertFuelTypes_holds types t)

theorem map_eq_of_map_strip_eq {α β γ : Type} (strip : α → γ) (f : α → β)
    (hfac : ∀ a a2, strip a = strip a2 → f a = f a2) :
    ∀ {l l2 : List α}, l.map strip = l2.map strip → l.map f = l2.map f := by
  intro l
  induction l with
  | nil =>
    intro l2 h
    rw [List.map_nil] at h
    rw [List.map_eq_nil_iff.mp h.symm]
  | cons a t ih =>
    intro l2 h
    cases l2 with
    | nil => rw [List.map_nil] at h; cases h
    | cons a2 t2 =>
      simp only [List.map_cons, List.cons.injEq] at h ⊢
      exact ⟨hfac a a2 h.1, ih h.2⟩

theorem map_strip_rankFuels (s : List Obs)
    (cfs : Table (String × String) CountryFuelRow)
    (fs : Table String FuelRow) :
    (rankFuels s cfs fs).map
        (stripFuelEntry (cfFuelTypes cfs) (stagingFuelTypes s)) =
      fs.map (stripFuelEntry (cfFuelTypes cfs) (stagingFuelTypes s)) := by
  unfold rankFuels
  rw [List.map_map]
  apply List.map_congr_left
  intro e _
  simp only [Function.comp]
  unfold stripFuelEntry rankedFuelRow
  by_cases h1 : e.1 ∈ cfFuelTypes cfs <;>
    by_cases h2 : e.1 ∈ stagingFuelTypes s <;> simp [h1, h2]

theorem rankedFuelRow_congr (s : List Obs)
    (cfs : Table (String × String) CountryFuelRow) (t : String)
    {r r2 : FuelRow}
    (h : stripFuelEntry (cfFuelTypes cfs) (stagingFuelTypes s) (t, r) =
      stripFuelEntry (cfFuelTypes cfs) (stagingFuelTypes s) (t, r2)) :
    rankedFuelRow s cfs t r = rankedFuelRow s cfs t r2 := by
  cases r with
  | mk ra rb rc =>
  cases r2 with
  | mk sa sb sc =>
  unfold stripFuelEntry at h
  simp only [Prod.mk.injEq, FuelRow.mk.injEq] at h
  unfold rankedFuelRow
  by_cases h1 : t ∈ cfFuelTypes cfs <;>
    by_cases h2 : t ∈ stagingFuelTypes s <;>
      simp_all [FuelRow.mk.injEq]

theorem rankFuels_congr (s : List Obs)
    (cfs : Table (String × String) CountryFuelRow)
    {fs fs2 : Table String FuelRow}
    (h : fs.map (stripFuelEntry (cfFuelTypes cfs) (stagingFuelTypes s)) =
      fs2.map (stripFuelEntry (cfFuelTypes cfs) (stagingFuelTypes s))) :
    rankFuels s cfs fs = rankFuels s cfs fs2 := by
  unfold rankFuels
  refine map_eq_of_map_strip_eq _ _ ?_ h
  intro a a2 ha
  have hk : a.1 = a2.1 := by
    have := congrArg Prod.fst ha
    simpa [stripFuelEntry] using this
  rw [Prod.ext_iff]
  refine ⟨hk, ?_⟩
  simp only
  rw [← hk]
  apply rankedFuelRow_congr s cfs a.1
  rw [show ((a.1, a.2) : String × FuelRow) = a from rfl, ha, hk]

theorem zipWith_rank_congr :
    ∀ {cs cs2 : Table String CountryRow} (rs : List Nat),
      cs.map stripCountryEntry = cs2.map stripCountryEntry →
      List.zipWith (fun e rk => (e.1, { e.2 with electricity_rank := rk }))
          cs rs =
        List.zipWith (fun e rk => (e.1, { e.2 with electricity_rank := rk }))
          cs2 rs := by
  intro cs
  induction cs with
  | nil =>
    intro cs2 rs h
    rw [List.map_nil] at h
    rw [List.map_eq_nil_iff.mp h.symm]
  | cons a t ih =>
    intro cs2 rs h
    cases cs2 with
    | nil => rw [List.map_nil] at h; cases h
    | cons a2 t2 =>
      cases rs with
      | nil => rfl
      | cons r rrest =>
        simp only [List.map_cons, List.cons.injEq] at h
        simp only [List.zipWith_cons_cons, List.cons.injEq]
        constructor
        · obtain ⟨c1, r1⟩ := a
          obtain ⟨c2, r2⟩ := a2
          cases r1
          cases r2
          simp only [stripCountryEntry, Prod.mk.injEq, CountryRow.mk.injEq] at h
          simp_all [Prod.mk.injEq, CountryRow.mk.injEq]
        · exact ih rrest h.2

theorem rankCountries_congr {cs cs2 : Table String CountryRow}
    (h : cs.map stripCountryEntry = cs2.map stripCountryEntry) :
    rankCountries cs = rankCountries cs2 := by
  have hgens : cs.map (fun e => e.2.generation_latest_12_months) =
      cs2.map (fun e => e.2.generation_latest_12_months) := by
    refine map_eq_of_map_strip_eq stripCountryEntry _ ?_ h
    intro a a2 ha
    have := congrArg (fun e => e.2.generation_latest_12_months) ha
    simpa [stripCountryEntry] using this
  have hlen : cs.length = cs2.length := by
    have := congrArg List.length h
    simpa using this
  have horder : countryRankOrder cs = countryRankOrder cs2 := by
    unfold countryRankOrder
    rw [hgens, hlen]
  have hranks : countryRanks cs = countryRanks cs2 := by
    unfold countryRanks
    rw [horder, hlen]
  unfold rankCountries
  rw [hranks]
  exact zipWith_rank_congr (countryRanks cs2) h

theorem keys_countryKVs (s : List Obs) (codes : List String) :
    (countryKVs s codes).map (·.1) =
      codes.filter (fun c => ! countrySkipped s c) := by
  induction codes with
  | nil => rfl
  | cons c rest ih =>
    by_cases h : countrySkipped s c = true <;>
      simp only [countryKVs, List.filterMap_cons, List.filter_cons, h,
        if_true, if_false, Bool.not_true, Bool.not_false, List.map_cons] <;>
      simpa [countryKVs] using ih

theorem nodup_keys_countryKVs (s : List Obs) {codes : List String}
    (h : codes.Nodup) : ((countryKVs s codes).map (·.1)).Nodup := by
  rw [keys_countryKVs]
  exact h.filter _

theorem nodup_flatMap_of_proj {α κ : Type} [DecidableEq α] {codes : List α}
    (g : α → List κ) (proj : κ → α)
    (hproj : ∀ c x, x ∈ g c → proj x = c)
    (hnd : codes.Nodup) (hblocks : ∀ c, (g c).Nodup) :
    (codes.flatMap g).Nodup := by
  induction codes with
  | nil => simp
  | cons c rest ih =>
    rw [List.flatMap_cons, List.nodup_append]
    rw [List.nodup_cons] at hnd
    refine ⟨hblocks c, ih hnd.2, ?_⟩
    intro x hx hx2
    obtain ⟨c2, hc2, hxc2⟩ := List.mem_flatMap.mp hx2
    have h1 := hproj c x hx
    have h2 := hproj c2 x hxc2
    exact hnd.1 (h1 ▸ h2 ▸ hc2)

theorem nodup_fuelTypesOf (records : List Obs) : (fuelTypesOf records).Nodup :=
  (List.nodup_dedup _).filter _

theorem nodup_keys_countryFuelKVs (s : List Obs) {codes : List String}
    (h : codes.Nodup) : ((countryFuelKVs s codes).map (·.1)).Nodup := by
  unfold countryFuelKVs
  rw [List.map_flatMap]
  refine nodup_flatMap_of_proj _ Prod.fst ?_ h ?_
  · intro c x hx
    unfold countryFuelKVsFor at hx
    by_cases hskip : countrySkipped s c = true
    · rw [if_pos hskip] at hx; cases hx
    · rw [if_neg hskip, List.map_map] at hx
      obtain ⟨ft, _, rfl⟩ := List.mem_map.mp hx
      rfl
  · intro c
    unfold countryFuelKVsFor
    by_cases hskip : countrySkipped s c = true
    · rw [if_pos hskip]; simp
    · rw [if_neg hskip, List.map_map]
      refine List.Nodup.map ?_ (nodup_fuelTypesOf _)
      intro a b hab
      have h2 : ((c, a) : String × String) = (c, b) := hab
      injection h2 with h3 h4

theorem nodup_filterMap_guard {α κ : Type} (l : List α) (p : α → Bool)
    (h : α → κ) (hinj : ∀ a b, h a = h b → a = b) (hnd : l.Nodup) :
    (l.filterMap (fun a => if p a then some (h a) else none)).Nodup := by
  induction l with
  | nil => simp
  | cons a t ih =>
    rw [List.nodup_cons] at hnd
    rw [List.filterMap_cons]
    by_cases hp : p a = true
    · rw [if_pos hp]
      rw [List.nodup_cons]
      refine ⟨?_, ih hnd.2⟩
      intro hmem
      obtain ⟨b, hb, hbeq⟩ := List.mem_filterMap.mp hmem
      by_cases hpb : p b = true
      · rw [if_pos hpb] at hbeq
        obtain hb2 := Option.some.inj hbeq
        exact hnd.1 (hinj b a hb2 ▸ hb)
      · rw [if_neg hpb] at hbeq; cases hbeq
    · rw [if_neg hp]
      exact ih hnd.2

theorem nodup_annualYears (records : List Obs) : (annualYears records).Nodup :=
  ((List.perm_insertionSort _ _).nodup_iff).mpr (List.nodup_dedup _)

theorem nodup_keys_annualRows (records : List Obs) :
    ((annualRows records).map (·.1)).Nodup := by
  unfold annualRows
  rw [List.map_flatMap]
  refine nodup_flatMap_of_proj _ Prod.fst ?_ (nodup_annualYears records) ?_
  · intro y x hx
    rw [List.map_filterMap] at hx
    obtain ⟨f, _, hsome⟩ := List.mem_filterMap.mp hx
    by_cases hfy : hasFuelYear records y f = true
    · simp only [hfy, if_pos, Option.map_some] at hsome
      obtain rfl := Option.some.inj hsome
      rfl
    · simp [hfy] at hsome
  · intro y
    rw [List.map_filterMap]
    have heq : (fun f => (if hasFuelYear records y f = true then
          some ((y, f), annualRowFor records y f) else none).map (·.1)) =
        (fun f => if hasFuelYear records y f then some ((y, f)) else none) := by
      funext f
      by_cases hfy : hasFuelYear records y f = true <;> simp [hfy]
    rw [heq]
    refine nodup_filterMap_guard _ _ (fun f => (y, f)) ?_ (List.nodup_dedup _)
    intro a b hab
    injection hab with h1 h2

theorem nodup_keys_countryFuelYearKVs (s : List Obs) {codes : List String}
    (h : codes.Nodup) :
    ((countryFuelYearKVs s codes).map (·.1)).Nodup := by
  unfold countryFuelYearKVs
  rw [List.map_flatMap]
  refine nodup_flatMap_of_proj _ (fun k => k.1) ?_ h ?_
  · intro c x hx
    unfold countryFuelYearKVsFor at hx
    by_cases hskip : countrySkipped s c = true
    · rw [if_pos hskip] at hx; cases hx
    · rw [if_neg hskip, List.map_map] at hx
      obtain ⟨kv, _, rfl⟩ := List.mem_map.mp hx
      rfl
  · intro c
    unfold countryFuelYearKVsFor
    by_cases hskip : countrySkipped s c = true
    · rw [if_pos hskip]; simp
    · rw [if_neg hskip, List.map_map]
      have heq : ((fun (x : (String × String × Int) × FuelYearRow) => x.1) ∘
          fun (kv : (Int × String) × FuelYearRow) =>
            ((c, kv.1.2, kv.1.1), kv.2)) =
          (fun (kv : (Int × String) × FuelYearRow) => (c, kv.1.2, kv.1.1)) := rfl
      rw [heq]
      have h2 : (fun (kv : (Int × String) × FuelYearRow) => (c, kv.1.2, kv.1.1))
          = (fun yf : Int × String => (c, yf.2, yf.1)) ∘ (fun kv => kv.1) := rfl
      rw [h2, ← List.map_map]
      refine List.Nodup.map ?_ (nodup_keys_annualRows _)
      intro a b hab
      have h3 : ((c, a.2, a.1) : String × String × Int) = (c, b.2, b.1) := hab
      injection h3 with h4 h5
      injection h5 with h6 h7
      exact Prod.ext_iff.mpr ⟨h7, h6⟩

theorem stripCountryEntry_key : ∀ e : String × CountryRow,
    (stripCountryEntry e).1 = e.1 := fun _ => rfl

theorem rankCountries_strip (cs : Table String CountryRow) :
    (rankCountries cs).map stripCountryEntry = cs.map stripCountryEntry :=
  map_strip_zipWith cs (countryRanks cs) (by simp [countryRanks])

theorem keysOf_rankCountries (cs : Table String CountryRow) :
    keysOf (rankCountries cs) = keysOf cs := by
  have h := rankCountries_strip cs
  have h2 := congrArg (List.map (·.1)) h
  rw [List.map_map, List.map_map] at h2
  exact h2

theorem pipelineDB_ext {d1 d2 : PipelineDB} (h1 : d1.staging = d2.staging)
    (h2 : d1.countries = d2.countries) (h3 : d1.fuels = d2.fuels)
    (h4 : d1.countryFuels = d2.countryFuels)
    (h5 : d1.countryFuelYears = d2.countryFuelYears) : d1 = d2 := by
  cases d1; cases d2; simp_all

/-- C8: the transform-and-load pipeline is idempotent as a function of the
staging table: a second run on unchanged staging leaves every aggregate
table exactly as the first run did, and runs preserve key-uniqueness of
the Country, CountryFuel and CountryFuelYear tables (no duplicate rows). -/
theorem claim_C8_idempotence (db : PipelineDB) :
    transformAndLoad none (transformAndLoad none db) =
      transformAndLoad none db ∧
    ((keysOf db.countries).Nodup →
      (keysOf (transformAndLoad none db).countries).Nodup) ∧
    ((keysOf db.countryFuels).Nodup →
      (keysOf (transformAndLoad none db).countryFuels).Nodup) ∧
    ((keysOf db.countryFuelYears).Nodup →
      (keysOf (transformAndLoad none db).countryFuelYears).Nodup) := by
  have hnd : ((db.staging.map (·.country_code)).dedup).Nodup :=
    List.nodup_dedup _
  refine ⟨?_, ?_, ?_, ?_⟩
  · -- idempotence
    have hcf : (transformAndLoad none db).countryFuels =
        upsertAll (countryFuelKVs db.staging
          ((db.staging.map (·.country_code)).dedup)) db.countryFuels := rfl
    have hcfi : upsertAll (countryFuelKVs db.staging
          ((db.staging.map (·.country_code)).dedup))
          ((transformAndLoad none db).countryFuels) =
        (transformAndLoad none db).countryFuels := by
      rw [hcf]
      exact upsertAll_idem (nodup_keys_countryFuelKVs db.staging hnd) _
    apply pipelineDB_ext
    · rfl
    · -- countries
      show rankCountries (upsertAll (countryKVs db.staging
          ((db.staging.map (·.country_code)).dedup))
          (rankCountries (upsertAll (countryKVs db.staging
            ((db.staging.map (·.country_code)).dedup)) db.countries))) =
        rankCountries (upsertAll (countryKVs db.staging
          ((db.staging.map (·.country_code)).dedup)) db.countries)
      have hidem : upsertAll (countryKVs db.staging
            ((db.staging.map (·.country_code)).dedup))
            (upsertAll (countryKVs db.staging
              ((db.staging.map (·.country_code)).dedup)) db.countries) =
          upsertAll (countryKVs db.staging
            ((db.staging.map (·.country_code)).dedup)) db.countries :=
        upsertAll_idem (nodup_keys_countryKVs db.staging hnd) _
      apply rankCountries_congr
      rw [map_strip_upsertAll stripCountryEntry stripCountryEntry_key,
        rankCountries_strip,
        ← map_strip_upsertAll stripCountryEntry stripCountryEntry_key, hidem]
    · -- fuels
      show rankFuels db.staging
          (upsertAll (countryFuelKVs db.staging
            ((db.staging.map (·.country_code)).dedup))
            ((transformAndLoad none db).countryFuels))
          (upsertFuelTypes (processedFuelTypes db.staging
            ((db.staging.map (·.country_code)).dedup))
            ((transformAndLoad none db).fuels)) =
        (transformAndLoad none db).fuels
      rw [hcfi]
      have hf1 : (transformAndLoad none db).fuels =
          rankFuels db.staging ((transformAndLoad none db).countryFuels)
            (upsertFuelTypes (processedFuelTypes db.staging
              ((db.staging.map (·.country_code)).dedup)) db.fuels) := rfl
      rw [hf1]
      apply rankFuels_congr
      rw [map_strip_upsertFuelTypes, map_strip_rankFuels,
        ← map_strip_upsertFuelTypes, upsertFuelTypes_idem]
    · exact hcfi
    · -- countryFuelYears
      show upsertAll (countryFuelYearKVs db.staging
          ((db.staging.map (·.country_code)).dedup))
          ((transformAndLoad none db).countryFuelYears) =
        (transformAndLoad none db).countryFuelYears
      have hy : (transformAndLoad none db).countryFuelYears =
          upsertAll (countryFuelYearKVs db.staging
            ((db.staging.map (·.country_code)).dedup)) db.countryFuelYears := rfl
      rw [hy]
      exact upsertAll_idem (nodup_keys_countryFuelYearKVs db.staging hnd) _
  · intro h
    show (keysOf (rankCountries (upsertAll (countryKVs db.staging
      ((db.staging.map (·.country_code)).dedup)) db.countries))).Nodup
    rw [keysOf_rankCountries]
    exact nodup_keysOf_upsertAll _ h
  · intro h
    exact nodup_keysOf_upsertAll _ h
  · intro h
    exact nodup_keysOf_upsertAll _ h

/-- C8 witness: a run over `witnessDB` keeps all three key sets duplicate
free. -/
theorem claim_C8_idempotence_witness :
    (keysOf (transformAndLoad none witnessDB).countries).Nodup ∧
    (keysOf (transformAndLoad none witnessDB).countryFuels).Nodup ∧
    (keysOf (transformAndLoad none witnessDB).countryFuelYears).Nodup :=
  ⟨(claim_C8_idempotence witnessDB).2.1 (by decide),
   (claim_C8_idempotence witnessDB).2.2.1 (by decide),
   (claim_C8_idempotence witnessDB).2.2.2 (by decide)⟩

theorem length_le_upsertRow {κ β : Type} [DecidableEq κ] (k : κ) (v : β)
    (t : Table κ β) : t.length ≤ (upsertRow k v t).length := by
  unfold upsertRow
  by_cases hmem : (t.any (fun e => e.1 = k)) = true
  · rw [if_pos hmem, List.length_map]
  · rw [if_neg hmem, List.length_append]
    omega

theorem length_le_upsertAll {κ β : Type} [DecidableEq κ] (kvs : List (κ × β))
    (t : Table κ β) : t.length ≤ (upsertAll kvs t).length := by
  induction kvs generalizing t with
  | nil => exact le_refl _
  | cons kv rest ih =>
    rw [upsertAll_cons]
    exact le_trans (length_le_upsertRow kv.1 kv.2 t) (ih _)

theorem upsertRow_getElem_prefix {κ β : Type} [DecidableEq κ] (k : κ) (v : β)
    (t : Table κ β) (i : Nat) (hi : i < t.length)
    (hi2 : i < (upsertRow k v t).length) :
    ((upsertRow k v t)[i]).1 = (t[i]).1 ∧
    ((t[i]).1 ≠ k → (upsertRow k v t)[i] = t[i]) := by
  by_cases hmem : (t.any (fun e => e.1 = k)) = true
  · have hl : upsertRow k v t =
        t.map (fun e => if e.1 = k then (k, v) else e) := by
      unfold upsertRow; rw [if_pos hmem]
    rw [List.getElem_of_eq hl hi2, List.getElem_map]
    by_cases h0 : (t[i]).1 = k
    · rw [if_pos h0]
      exact ⟨h0.symm, fun hne => absurd h0 hne⟩
    · rw [if_neg h0]
      exact ⟨rfl, fun _ => rfl⟩
  · have hl : upsertRow k v t = t ++ [(k, v)] := by
      unfold upsertRow; rw [if_neg hmem]
    rw [List.getElem_of_eq hl hi2, List.getElem_append_left hi]
    exact ⟨rfl, fun _ => rfl⟩

theorem upsertAll_getElem_prefix {κ β : Type} [DecidableEq κ]
    (kvs : List (κ × β)) (t : Table κ β) (i : Nat) (hi : i < t.length)
    (hi2 : i < (upsertAll kvs t).length) :
    ((upsertAll kvs t)[i]).1 = (t[i]).1 ∧
    ((t[i]).1 ∉ kvs.map (·.1) → (upsertAll kvs t)[i] = t[i]) := by
  induction kvs generalizing t with
  | nil => exact ⟨rfl, fun _ => rfl⟩
  | cons kv rest ih =>
    have hl : upsertAll (kv :: rest) t =
        upsertAll rest (upsertRow kv.1 kv.2 t) := rfl
    have hi1 : i < (upsertRow kv.1 kv.2 t).length :=
      lt_of_lt_of_le hi (length_le_upsertRow kv.1 kv.2 t)
    have hi2b : i < (upsertAll rest (upsertRow kv.1 kv.2 t)).length := by
      rw [← hl]; exact hi2
    obtain ⟨hk1, he1⟩ := upsertRow_getElem_prefix kv.1 kv.2 t i hi hi1
    obtain ⟨hk2, he2⟩ := ih (upsertRow kv.1 kv.2 t) hi1 hi2b
    rw [List.getElem_of_eq hl hi2]
    constructor
    · rw [hk2, hk1]
    · intro hnotin
      rw [List.map_cons, List.mem_cons] at hnotin
      push_neg at hnotin
      rw [he2 (by rw [hk1]; exact hnotin.2), he1 hnotin.1]

/-- C10: the ranking pass reads and rewrites the entire aggregate store,
not only the countries of the current (possibly `--country`-restricted)
run: the stored country rows survive in place with key and non-rank fields
unchanged when their code is outside the processed set, yet every stored
row's rank is reassigned so the ranks are a permutation of 1..N over the
full table; every fuel type occurring in staging gets its all-time total
from the full staging table, and every fuel type with `CountryFuel` rows
gets its rank and cross-country rolling total from the full `CountryFuel`
table. -/
theorem claim_C10_ranking_frame (req : List String) (db : PipelineDB) :
    (db.countries.length ≤ (transformAndLoad (some req) db).countries.length) ∧
    (∀ (i : Nat) (hi : i < db.countries.length)
        (hi2 : i < (transformAndLoad (some req) db).countries.length),
      (((transformAndLoad (some req) db).countries[i]).1 = (db.countries[i]).1) ∧
      ((db.countries[i]).1 ∉ countryCodesToProcess db.staging (some req) →
        stripCountryEntry ((transformAndLoad (some req) db).countries[i]) =
          stripCountryEntry (db.countries[i]))) ∧
    (((transformAndLoad (some req) db).countries.map
        (fun e => e.2.electricity_rank)).Perm
      ((List.range (transformAndLoad (some req) db).countries.length).map
        (· + 1))) ∧
    (∀ e ∈ (transformAndLoad (some req) db).fuels,
      e.1 ∈ stagingFuelTypes db.staging →
        e.2.generation_all_time = allTimeTotal db.staging e.1) ∧
    (∀ e ∈ (transformAndLoad (some req) db).fuels,
      e.1 ∈ cfFuelTypes (transformAndLoad (some req) db).countryFuels →
        e.2.generation_latest_12_months =
          fuelTotal (transformAndLoad (some req) db).countryFuels e.1 ∧
        e.2.rank = (fuelRankOrder
          (transformAndLoad (some req) db).countryFuels).indexOf e.1 + 1) := by
  have hcs : (transformAndLoad (some req) db).countries =
      rankCountries (upsertAll (countryKVs db.staging
        (countryCodesToProcess db.staging (some req))) db.countries) := rfl
  have hlen1 : db.countries.length ≤ (upsertAll (countryKVs db.staging
      (countryCodesToProcess db.staging (some req))) db.countries).length :=
    length_le_upsertAll _ _
  refine ⟨?_, ?_, ?_, ?_, ?_⟩
  · rw [hcs, length_rankCountries]
    exact hlen1
  · intro i hi hi2
    have hi2r : i < (rankCountries (upsertAll (countryKVs db.staging
        (countryCodesToProcess db.staging (some req))) db.countries)).length := by
      rw [← hcs]; exact hi2
    have hiu : i < (upsertAll (countryKVs db.staging
        (countryCodesToProcess db.staging (some req))) db.countries).length :=
      lt_of_lt_of_le hi hlen1
    obtain ⟨hk, he⟩ := upsertAll_getElem_prefix
      (countryKVs db.staging (countryCodesToProcess db.staging (some req)))
      db.countries i hi hiu
    have hge := rankCountries_getElem (upsertAll (countryKVs db.staging
      (countryCodesToProcess db.staging (some req))) db.countries) i hi2r
    constructor
    · rw [List.getElem_of_eq hcs hi2, hge]
      simp only [List.get_eq_getElem]
      exact hk
    · intro hnot
      have hnotkv : ((db.countries[i]).1) ∉ (countryKVs db.staging
          (countryCodesToProcess db.staging (some req))).map (·.1) := by
        intro hmem
        rw [keys_countryKVs] at hmem
        exact hnot (List.mem_of_mem_filter hmem)
      have heq := he hnotkv
      rw [List.getElem_of_eq hcs hi2, hge]
      unfold stripCountryEntry
      simp only [List.get_eq_getElem]
      rw [heq]
  · rw [hcs, length_rankCountries]
    exact rankCountries_ranks_perm _
  · intro e he hst
    have hfs : (transformAndLoad (some req) db).fuels =
        rankFuels db.staging ((transformAndLoad (some req) db).countryFuels)
          (upsertFuelTypes (processedFuelTypes db.staging
            (countryCodesToProcess db.staging (some req))) db.fuels) := rfl
    rw [hfs] at he
    unfold rankFuels at he
    obtain ⟨e0, _, rfl⟩ := List.mem_map.mp he
    unfold rankedFuelRow
    simp only at hst ⊢
    by_cases h1 : e0.1 ∈ cfFuelTypes ((transformAndLoad (some req) db).countryFuels) <;>
      simp [h1, hst]
  · intro e he hcf
    have hfs : (transformAndLoad (some req) db).fuels =
        rankFuels db.staging ((transformAndLoad (some req) db).countryFuels)
          (upsertFuelTypes (processedFuelTypes db.staging
            (countryCodesToProcess db.staging (some req))) db.fuels) := rfl
    rw [hfs] at he
    unfold rankFuels at he
    obtain ⟨e0, _, rfl⟩ := List.mem_map.mp he
    unfold rankedFuelRow
    simp only at hcf ⊢
    by_cases h2 : e0.1 ∈ stagingFuelTypes db.staging <;>
      simp [h2, hcf]

/-- C10 witness: the stored row of the unprocessed country ZZZ keeps its
key and non-rank fields across a run. -/
theorem claim_C10_ranking_frame_witness :
    ((transformAndLoad (some []) witnessDB).countries.get
        ⟨0, by decide⟩).1 =
      (witnessDB.countries.get ⟨0, by decide⟩).1 ∧
    stripCountryEntry ((transformAndLoad (some []) witnessDB).countries.get
        ⟨0, by decide⟩) =
      stripCountryEntry (witnessDB.countries.get ⟨0, by decide⟩) := by
  have h := (claim_C10_ranking_frame [] witnessDB).2.1 0 (by decide) (by decide)
  exact ⟨h.1, h.2 (by decide)⟩
